import Mathlib

/-!
# Songbook notation core: tokenizer, note resolver, transliterator, event compiler

A shallow embedding of the notation core of `build_songbook.py`:
`tokenize_fallback`, `_indian_words_to_letter_notation`, `tokenize_from_indian`,
`western_from_indian`, `_parse_note_token`, `_expand_tokens_to_events`, the
notation-mapping loader, and the measure bookkeeping of `make_musicxml_per_song`.
Strings are modelled as `List Char`; Python regular expressions are translated
into explicit shape matchers with the same matching semantics on the inputs the
program feeds them.
-/

namespace Songbook

abbrev Chars := List Char

/-- The apostrophe character (written via its code point). -/
def apos : Char := Char.ofNat 39

/-- The curly right single quote that the source normalizes to an apostrophe. -/
def curly : Char := Char.ofNat 0x2019

/-- Python `\s` for the ASCII whitespace the data contains. -/
def isPySpace (c : Char) : Bool :=
  c = ' ' ∨ c = '\t' ∨ c = '\n' ∨ c = '\r' ∨ c = Char.ofNat 11 ∨ c = Char.ofNat 12

/-- Python `str.strip()`. -/
def pyStrip (l : Chars) : Chars :=
  ((l.dropWhile isPySpace).reverse.dropWhile isPySpace).reverse

/-- Python `str.rstrip()`. -/
def pyRStrip (l : Chars) : Chars :=
  (l.reverse.dropWhile isPySpace).reverse

/-- `p` is a prefix of `l` (Boolean, structural). -/
def isPfx : Chars → Chars → Bool
  | [], _ => true
  | _ :: _, [] => false
  | p :: ps, c :: cs => p = c && isPfx ps cs

/-- Python `pat in l` for a fixed nonempty pattern (substring containment). -/
def containsSub (pat : Chars) : Chars → Bool
  | [] => isPfx pat []
  | c :: rest => isPfx pat (c :: rest) || containsSub pat rest

/-- Auxiliary of `removeSub`, with fuel bounded by the list length. -/
def removeSubAux (pat : Chars) : Nat → Chars → Chars
  | 0, l => l
  | _ + 1, [] => []
  | n + 1, c :: rest =>
      if isPfx pat (c :: rest) then removeSubAux pat n ((c :: rest).drop pat.length)
      else c :: removeSubAux pat n rest

/-- Python `l.replace(pat, "")` for a nonempty `pat` (left-to-right removal). -/
def removeSub (pat : Chars) (l : Chars) : Chars :=
  removeSubAux pat l.length l

/-- `re.sub(r":$", "", p)`: drop one trailing colon. -/
def stripTrailingColon (l : Chars) : Chars :=
  if l.getLast? = some ':' then l.dropLast else l

/-- `re.sub(r"c{k,}$", "", p)`: drop the trailing run of `c` when it has length ≥ `k`. -/
def stripTrailingRun (c : Char) (k : Nat) (l : Chars) : Chars :=
  let r := l.reverse.takeWhile (fun x => x = c)
  if k ≤ r.length then l.take (l.length - r.length) else l

/-- The trailing run of `c` in `l` has length at least `k` (`re.search(r"c{k,}$", p)`). -/
def endsWithRun (c : Char) (k : Nat) (l : Chars) : Bool :=
  k ≤ (l.reverse.takeWhile (fun x => x = c)).length

/-- Auxiliary of `collapseWS`: the flag records whether the previous character
was whitespace (so a run emits a single space). -/
def collapseWSAux : Bool → Chars → Chars
  | _, [] => []
  | prev, c :: rest =>
      if isPySpace c then
        (if prev then collapseWSAux true rest else ' ' :: collapseWSAux true rest)
      else c :: collapseWSAux false rest

/-- `re.sub(r"\s+", " ", s)`. -/
def collapseWS (l : Chars) : Chars := collapseWSAux false l

/-- Python `s.split(" ")`: split at every single space, keeping empty pieces. -/
def splitSpace : Chars → List Chars
  | [] => [[]]
  | c :: rest =>
      if c = ' ' then [] :: splitSpace rest
      else
        match splitSpace rest with
        | r :: rs => (c :: r) :: rs
        | [] => [[c]]

/-! ## Notation mapping (`_default_notation_mapping`, `_load_notation_mapping`) -/

/-- One value of the `token_to_western` JSON object: optional `step`/`alter` fields. -/
structure WesternEntry where
  step : Option Chars
  alter : Option Int
deriving DecidableEq

/-- The mapping configuration object, with each of the six documented keys
optional (a JSON file may omit any of them). -/
structure MappingCfg where
  octave_markers : Option (List (Chars × Chars))
  accidental_markers : Option (List (Chars × Chars))
  word_to_token : Option (List (Chars × Chars))
  komal_word_to_token : Option (List (Chars × Chars))
  tivra_word_to_token : Option (List (Chars × Chars))
  token_to_western : Option (List (Chars × WesternEntry))
deriving DecidableEq

/-- `_default_notation_mapping`: the built-in fallback table (SA=C, komal as
flats on Re/Ga/Dha/Ni, tivra Ma = F#). -/
def mappingCfgDefault : MappingCfg where
  octave_markers := some [(['l','o','w'], ['.']), (['m','i','d','d','l','e'], []),
    (['h','i','g','h'], [apos])]
  accidental_markers := some [(['k','o','m','a','l'], ['(', 'k', ')']),
    (['t','i','v','r','a'], ['(', 'T', ')'])]
  word_to_token := some [(['S','a'], ['S']), (['R','e'], ['R']), (['G','a'], ['G']),
    (['M','a'], ['m']), (['P','a'], ['P']), (['D','h','a'], ['D']), (['N','i'], ['N'])]
  komal_word_to_token := some [(['R','e'], ['r']), (['G','a'], ['g']),
    (['D','h','a'], ['d']), (['N','i'], ['n'])]
  tivra_word_to_token := some [(['M','a'], ['M'])]
  token_to_western := some [
    (['S'], ⟨some ['C'], some 0⟩), (['R'], ⟨some ['D'], some 0⟩),
    (['G'], ⟨some ['E'], some 0⟩), (['m'], ⟨some ['F'], some 0⟩),
    (['M'], ⟨some ['F'], some 1⟩), (['P'], ⟨some ['G'], some 0⟩),
    (['D'], ⟨some ['A'], some 0⟩), (['N'], ⟨some ['B'], some 0⟩),
    (['r'], ⟨some ['D'], some (-1)⟩), (['g'], ⟨some ['E'], some (-1)⟩),
    (['d'], ⟨some ['A'], some (-1)⟩), (['n'], ⟨some ['B'], some (-1)⟩)]

/-- `_load_notation_mapping`: a readable configuration file (`some cfg`) is
returned as-is; a missing or unreadable one (`none`) yields the default. -/
def loadMappingCfg : Option MappingCfg → MappingCfg
  | some cfg => cfg
  | none => mappingCfgDefault

/-- The module-level `_TOKEN_TO_WESTERN` built from a loaded mapping:
`{k: (str(v.get("step", "")), int(v.get("alter", 0)))}` over
`(_NOTATION.get("token_to_western", {}) or {})`. -/
def extractTokenToWestern (m : MappingCfg) : List (Chars × Chars × Int) :=
  (m.token_to_western.getD []).map (fun e => (e.1, (e.2.step.getD [], e.2.alter.getD 0)))

/-- The `_TOKEN_TO_WESTERN` in effect with the built-in defaults. -/
def tokenToWestern : List (Chars × Chars × Int) :=
  extractTokenToWestern mappingCfgDefault

/-- Dictionary lookup (`base in dict` / `dict[base]`). -/
def assocLookup (k : Chars) : List (Chars × α) → Option α
  | [] => none
  | (k', v) :: rest => if k = k' then some v else assocLookup k rest

/-! ## Tokenizer (`tokenize_fallback`) -/

/-- The letter class `[SRGmMPDNrgdn]`. -/
def baseLetters : Chars := ['S', 'R', 'G', 'm', 'M', 'P', 'D', 'N', 'r', 'g', 'd', 'n']

def isBaseLetter (c : Char) : Bool := baseLetters.contains c

/-- `^([RGDN])\((k|K)\)$`: full-match komal inline form, yielding the lowercased letter. -/
def komalInline : Chars → Option Char
  | [c1, c2, c3, c4] =>
      if (c1 = 'R' ∨ c1 = 'G' ∨ c1 = 'D' ∨ c1 = 'N') ∧ c2 = '(' ∧
          (c3 = 'k' ∨ c3 = 'K') ∧ c4 = ')' then some c1.toLower else none
  | _ => none

/-- `^,?[SRGmMPDNrgdn](?:[’']|\.|)?(?::)?$` (the tokenizer's `note_simple`). -/
def noteSimpleMatch (l : Chars) : Bool :=
  let l' := if l.head? = some ',' then l.tail else l
  match l' with
  | [b] => isBaseLetter b
  | [b, x] => isBaseLetter b && (x = curly || x = apos || x = '.' || x = ':')
  | [b, x, y] => isBaseLetter b && (x = curly || x = apos || x = '.') && y = ':'
  | _ => false

/-- `^([SRGmMPDNrgdn])~([SRGmMPDNrgdn])$` (the tokenizer's `meend`). -/
def meendMatch : Chars → Option (Char × Char)
  | [c1, c2, c3] =>
      if c2 = '~' ∧ isBaseLetter c1 ∧ isBaseLetter c3 then some (c1, c3) else none
  | _ => none

/-- `^\(([SRGmMPDNrgdn])\)([SRGmMPDNrgdn])([’']|\.|)?$` (the tokenizer's `kan`). -/
def kanMatch : Chars → Option (Char × Char × Chars)
  | [c1, c2, c3, c4] =>
      if c1 = '(' ∧ c3 = ')' ∧ isBaseLetter c2 ∧ isBaseLetter c4 then
        some (c2, c4, []) else none
  | [c1, c2, c3, c4, c5] =>
      if c1 = '(' ∧ c3 = ')' ∧ isBaseLetter c2 ∧ isBaseLetter c4 ∧
          (c5 = curly ∨ c5 = apos ∨ c5 = '.') then some (c2, c4, [c5]) else none
  | _ => none

/-- `norm_note` inside `tokenize_fallback`. -/
def normNote (tok : Chars) : Chars :=
  let tok := pyStrip tok
  let low := tok.head? = some ','
  let tok := if low then tok.tail else tok
  let oh := if tok.getLast? = some curly ∨ tok.getLast? = some apos then some apos
    else if tok.getLast? = some '.' then some '.' else none
  let octv : Chars := match oh with | some c => [c] | none => []
  let tok := if oh.isSome then tok.dropLast else tok
  let tok := match komalInline tok with | some c => [c] | none => tok
  let tok := removeSub ['(', 'k', ')'] tok
  let tok := removeSub ['(', 'K', ')'] tok
  if low then ',' :: (tok ++ octv) else tok ++ octv

/-- The hold-marker detection of the fragment loop:
`"..." in p or re.search(r"--+$", p) or re.search(r"\.{3,}$", p) or p.endswith(":")`. -/
def holdDetected (p : Chars) : Bool :=
  containsSub ['.', '.', '.'] p || endsWithRun '-' 2 p || endsWithRun '.' 3 p ||
    p.getLast? = some ':'

/-- Hold-marker stripping applied when a hold is detected. -/
def stripHoldMarks (p : Chars) : Chars :=
  pyStrip (removeSub ['.', '.', '.']
    (stripTrailingRun '.' 3 (stripTrailingRun '-' 2 (stripTrailingColon p))))

/-- The body of `tokenize_fallback`'s fragment loop: classify one whitespace-split
fragment, returning the canonical token it contributes (if any). -/
def processFragment (p : Chars) : Option Chars :=
  let p := pyStrip p
  if p = [] then none else
  let hold := holdDetected p
  let p := if hold then stripHoldMarks p else p
  let holdS : Chars := if hold then [':'] else []
  match kanMatch p with
  | some (a, b, o) => some (('(' :: normNote [a]) ++ (')' :: normNote ([b] ++ o)))
  | none =>
    match meendMatch p with
    | some (a, b) => some (normNote [a] ++ ('~' :: normNote [b]))
    | none =>
      if (komalInline p).isSome then some (normNote p ++ holdS)
      else if noteSimpleMatch p then some (normNote p ++ holdS)
      else none

/-- `tokenize_fallback`. -/
def tokenizeFallback (line : Chars) : List Chars :=
  let s := pyStrip line
  if s = [] then [] else
  let s := s.map (fun c => if c = '|' then ' ' else c)
  let s := s.foldr (fun c acc =>
    if c = Char.ofNat 0x2026 then ' ' :: '.' :: '.' :: '.' :: ' ' :: acc else c :: acc) []
  let s := collapseWS s
  (splitSpace s).foldl (fun acc p =>
    match processFragment p with
    | some t => acc ++ [t]
    | none => acc) []

/-! ## Word→letter conversion (`_indian_words_to_letter_notation`)

Each `re.sub` pass is a left-to-right scan over the string; a match consumes at
least one character and scanning resumes after the consumed text (replacements
are never rescanned, matching Python's `re.sub`). A step function receives the
character preceding the current position (for `\b` word boundaries) and the
remaining input, and returns the replacement plus the number of characters
consumed. -/

/-- One `re.sub`-style scan. Fuel is the remaining length; every step consumes
at least one character, so `scanRewrite step l.length none l` processes all of `l`. -/
def scanRewrite (step : Option Char → Chars → Option (Chars × Nat)) :
    Nat → Option Char → Chars → Chars
  | 0, _, l => l
  | _ + 1, _, [] => []
  | n + 1, prev, c :: rest =>
      match step prev (c :: rest) with
      | some (repl, k) =>
          repl ++ scanRewrite step n (((c :: rest).take k).getLast?) ((c :: rest).drop k)
      | none => c :: scanRewrite step n (some c) rest

def runScan (step : Option Char → Chars → Option (Chars × Nat)) (l : Chars) : Chars :=
  scanRewrite step l.length none l

/-- Python `\w` (ASCII portion, which is all the data contains). -/
def isWordChar (c : Char) : Bool := c.isAlpha || c.isDigit || c = '_'

/-- `\b` before a pattern starting with a word character. -/
def atBoundary : Option Char → Bool
  | none => true
  | some c => !isWordChar c

/-- Case-insensitive prefix test. -/
def ciPfx (pat : Chars) (l : Chars) : Bool :=
  (l.take pat.length).map Char.toLower = pat.map Char.toLower

/-- The seven swara names, as alternated in `\b(Sa|Re|Ga|Ma|Pa|Dha|Ni)`. -/
def swaraWords : List Chars :=
  [['S','a'], ['R','e'], ['G','a'], ['M','a'], ['P','a'], ['D','h','a'], ['N','i']]

/-- One octave-mark character of the class `[.']`. -/
def isOctMark (c : Char) : Bool := c = '.' || c = apos

/-- One accidental suffix `\((k|K|t|T)\)` at the head of `l`. -/
def accSuffix : Chars → Option (Char × Chars)
  | '(' :: x :: ')' :: rest =>
      if x = 'k' ∨ x = 'K' ∨ x = 't' ∨ x = 'T' then some (x, rest) else none
  | _ => none

/-- `(?i)\b(Sa|Re|Ga|Ma|Pa|Dha|Ni)([.'])(\((k|K|t|T)\))` → `\1\3\2`. -/
def stepWordOctAcc (prev : Option Char) (l : Chars) : Option (Chars × Nat) :=
  if atBoundary prev then
    match swaraWords.find? (fun w => ciPfx w l) with
    | some w =>
        match l.drop w.length with
        | o :: rest =>
            if isOctMark o then
              match accSuffix rest with
              | some (x, _) =>
                  some ((l.take w.length) ++ ['(', x, ')', o], w.length + 4)
              | none => none
            else none
        | [] => none
    | none => none
  else none

/-- `(?i)([SRGmMPDNrgdn])([.'])(\((k|K|t|T)\))` → `\1\3\2` (the class is
case-insensitive under `(?i)`, so it matches any case of `srgmpdn`). -/
def stepLetterOctAcc (_prev : Option Char) (l : Chars) : Option (Chars × Nat) :=
  match l with
  | c :: o :: rest =>
      if (['s','r','g','m','p','d','n'].contains c.toLower) ∧ isOctMark o then
        match accSuffix rest with
        | some (x, _) => some ([c, '(', x, ')', o], 5)
        | none => none
      else none
  | _ => none

/-- `re.sub(r"Ma\((?:T|t)\)", "M", s, flags=IGNORECASE)`. -/
def stepMaTword (_prev : Option Char) (l : Chars) : Option (Chars × Nat) :=
  match l with
  | c1 :: c2 :: '(' :: x :: ')' :: _ =>
      if c1.toLower = 'm' ∧ c2.toLower = 'a' ∧ (x = 'T' ∨ x = 't') then
        some (['M'], 5) else none
  | _ => none

/-- `re.sub(r"\bMa#", "M", s, flags=IGNORECASE)`. -/
def stepMaSharpWord (prev : Option Char) (l : Chars) : Option (Chars × Nat) :=
  match l with
  | c1 :: c2 :: '#' :: _ =>
      if atBoundary prev ∧ c1.toLower = 'm' ∧ c2.toLower = 'a' then some (['M'], 3) else none
  | _ => none

/-- `re.sub(r"\bM\((?:T|t)\)", "M", s)` (case-sensitive). -/
def stepMTletter (prev : Option Char) (l : Chars) : Option (Chars × Nat) :=
  match l with
  | 'M' :: '(' :: x :: ')' :: _ =>
      if atBoundary prev ∧ (x = 'T' ∨ x = 't') then some (['M'], 4) else none
  | _ => none

/-- `re.sub(r"\bM#", "M", s)` (case-sensitive). -/
def stepMSharp (prev : Option Char) (l : Chars) : Option (Chars × Nat) :=
  match l with
  | 'M' :: '#' :: _ => if atBoundary prev then some (['M'], 2) else none
  | _ => none

/-- One ignore-case pass `re.sub(word + r"\((k|K)\)", repl, s, flags=IGNORECASE)`
for the komal full-word forms. -/
def stepKomalWord (w : Chars) (r : Char) (_prev : Option Char) (l : Chars) :
    Option (Chars × Nat) :=
  if ciPfx w l then
    match accSuffix (l.drop w.length) with
    | some (x, _) => if x = 'k' ∨ x = 'K' then some ([r], w.length + 3) else none
    | none => none
  else none

/-- `_RE_KOMAL_INLINE_ANYWHERE`: `([RGDN])\((k|K)\)` → lowercased letter. -/
def stepKomalInlineLetter (_prev : Option Char) (l : Chars) : Option (Chars × Nat) :=
  match l with
  | c :: '(' :: x :: ')' :: _ =>
      if (c = 'R' ∨ c = 'G' ∨ c = 'D' ∨ c = 'N') ∧ (x = 'k' ∨ x = 'K') then
        some ([c.toLower], 4) else none
  | _ => none

/-- One ignore-case pass `re.sub(w, rep, s, flags=IGNORECASE)` for a swara word. -/
def stepWordRepl (w : Chars) (r : Char) (_prev : Option Char) (l : Chars) :
    Option (Chars × Nat) :=
  if ciPfx w l then some ([r], w.length) else none

/-- `re.sub(r"([SRGmMPDNrgdn](?:[']|\.)?)(?=[SRGmMPDNrgdn])", r"\1 ", s)` —
insert spaces between adjacent note symbols (the lookahead is not consumed). -/
def stepInsertSpace (_prev : Option Char) (l : Chars) : Option (Chars × Nat) :=
  match l with
  | a :: b :: c :: _ =>
      if isBaseLetter a ∧ (b = apos ∨ b = '.') ∧ isBaseLetter c then
        some ([a, b, ' '], 2)
      else if isBaseLetter a ∧ isBaseLetter b then some ([a, ' '], 1)
      else none
  | [a, b] => if isBaseLetter a ∧ isBaseLetter b then some ([a, ' '], 1) else none
  | _ => none

/-- `_indian_words_to_letter_notation`. -/
def indianWordsToLetters (line : Chars) : Chars :=
  let s := pyStrip line
  if s = [] then [] else
  let s := s.map (fun c => if c = curly then apos else c)
  let s := runScan stepWordOctAcc s
  let s := runScan stepLetterOctAcc s
  let s := runScan stepMaTword s
  let s := runScan stepMaSharpWord s
  let s := runScan stepMTletter s
  let s := runScan stepMSharp s
  let s := runScan (stepKomalWord ['R','e'] 'r') s
  let s := runScan (stepKomalWord ['G','a'] 'g') s
  let s := runScan (stepKomalWord ['D','h','a'] 'd') s
  let s := runScan (stepKomalWord ['N','i'] 'n') s
  let s := runScan stepKomalInlineLetter s
  let s := runScan (stepWordRepl ['D','h','a'] 'D') s
  let s := runScan (stepWordRepl ['N','i'] 'N') s
  let s := runScan (stepWordRepl ['S','a'] 'S') s
  let s := runScan (stepWordRepl ['R','e'] 'R') s
  let s := runScan (stepWordRepl ['G','a'] 'G') s
  let s := runScan (stepWordRepl ['P','a'] 'P') s
  let s := runScan (stepWordRepl ['M','a'] 'm') s
  let s := runScan stepInsertSpace s
  pyStrip (collapseWS s)

/-- `tokenize_from_indian`: letter pass first, word→letter fallback second. -/
def tokenizeFromIndian (line : Chars) : List Chars :=
  let toks := tokenizeFallback line
  if toks ≠ [] then toks
  else tokenizeFallback (indianWordsToLetters line)

/-! ## Note resolver (`_parse_note_token`) -/

structure ParsedNote where
  step : Chars
  alter : Int
  octave : Int
  indianLabel : Chars
  westernLabel : Chars
deriving DecidableEq

/-- The marker-stripping phase of `_parse_note_token`: strip a leading comma
(low), then a trailing apostrophe (high) or dot (low), then resolve a komal
inline form; returns `(low, high, base)`. Expects its input already
stripped of whitespace and with curly apostrophes normalized. -/
def parseStrip (raw : Chars) : Bool × Bool × Chars :=
  let low1 := raw.head? = some ','
  let raw := if low1 then raw.tail else raw
  let high := raw.getLast? = some apos
  let raw := if high then raw.dropLast else raw
  let low2 := !high && raw.getLast? = some '.'
  let raw := if low2 then raw.dropLast else raw
  let raw := match komalInline raw with | some c => [c] | none => raw
  (low1 || low2, high, raw)

/-- The flat sign `♭`. -/
def flatSign : Char := Char.ofNat 0x266D

/-- `"♭" if alter == -1 else ("#" if alter == 1 else "")`. -/
def accOf (alter : Int) : Chars :=
  if alter = -1 then [flatSign] else if alter = 1 then ['#'] else []

/-- The base letter `_parse_note_token` looks up: the third component of
`parseStrip` after whitespace stripping and apostrophe normalization. -/
def resolveBase (tok : Chars) : Chars :=
  (parseStrip ((pyStrip tok).map (fun c => if c = curly then apos else c))).2.2

/-- `_parse_note_token`. -/
def parseNoteToken (tok : Chars) (defaultOctave : Int) : Option ParsedNote :=
  let raw := pyStrip tok
  if raw = [] then none else
  let lhb := parseStrip (raw.map (fun c => if c = curly then apos else c))
  match assocLookup lhb.2.2 tokenToWestern with
  | none => none
  | some (st, alter) =>
      let octave := defaultOctave + (if lhb.2.1 then 1 else 0) - (if lhb.1 then 1 else 0)
      some ⟨st, alter, octave,
        tok.map (fun c => if c = curly then apos else c),
        st ++ accOf alter ++ (toString octave).data⟩

/-! ## Event expansion (`_expand_tokens_to_events`) -/

inductive EvKind where
  | note
  | grace
  | slurStart
  | slurStop
  | hold
deriving DecidableEq

/-- `_RE_KAN = ^\(([^)]+)\)(.+)$`: everything up to the first `)` after the
opening paren (at least one character), then the nonempty remainder. -/
def kanFull (t : Chars) : Option (Chars × Chars) :=
  match t with
  | '(' :: rest =>
      let a := rest.takeWhile (fun c => c ≠ ')')
      match rest.drop a.length with
      | ')' :: b => if a ≠ [] ∧ b ≠ [] then some (a, b) else none
      | _ => none
  | _ => none

/-- `_RE_MEEND = ^(.+)~(.+)$`: the first group is greedy, so the split is at the
last `~` that leaves both sides nonempty. -/
def meendFull (t : Chars) : Option (Chars × Chars) :=
  match (List.range t.length).reverse.find?
      (fun i => 1 ≤ i ∧ i + 2 ≤ t.length ∧ t.getD i ' ' = '~') with
  | some i => some (t.take i, t.drop (i + 1))
  | none => none

/-- `_expand_tokens_to_events`. -/
def expandTokens : List Chars → List (EvKind × Chars)
  | [] => []
  | tok :: rest =>
      let t := pyStrip tok
      (if t = [] then []
       else if t.getLast? = some ':' then [(EvKind.hold, t.dropLast)]
       else
         match kanFull t with
         | some (a, b) => [(EvKind.grace, a), (EvKind.note, b)]
         | none =>
           match meendFull t with
           | some (a, b) =>
               [(EvKind.note, a), (EvKind.slurStart, []), (EvKind.note, b),
                (EvKind.slurStop, [])]
           | none => [(EvKind.note, t)]) ++ expandTokens rest

/-! ## Western transliterator (`western_from_indian`) -/

/-- `western_note_label` inside `western_from_indian`. -/
def westernNoteLabel (includeOctave : Bool) (defaultOctave : Int) (tok : Chars) : Chars :=
  match parseNoteToken tok defaultOctave with
  | none => []
  | some pn => if includeOctave then pn.westernLabel else pn.step ++ accOf pn.alter

/-- The per-token rendered segment (kan / meend / plain), before the hold
marker is re-attached. -/
def westernSeg (includeOctave : Bool) (defaultOctave : Int) (t : Chars) : Chars :=
  match kanFull t with
  | some (a, b) =>
      ('(' :: westernNoteLabel includeOctave defaultOctave a) ++
        (')' :: westernNoteLabel includeOctave defaultOctave b)
  | none =>
    match meendFull t with
    | some (a, b) =>
        westernNoteLabel includeOctave defaultOctave a ++
          ('~' :: westernNoteLabel includeOctave defaultOctave b)
    | none => westernNoteLabel includeOctave defaultOctave t

/-- The hold handling of `western_from_indian`'s loop: detach a trailing `:`,
render the segment, and re-attach the `:` when the segment is nonempty. An
empty result means the token renders to nothing and is skipped. -/
def segOfToken (includeOctave : Bool) (defaultOctave : Int) (t1 : Chars) : Chars :=
  let hold := t1.getLast? = some ':'
  let t := if hold then t1.dropLast else t1
  let seg := westernSeg includeOctave defaultOctave t
  if seg = [] then [] else if hold then seg ++ [':'] else seg

/-- The body of `western_from_indian`'s token loop. -/
def westernStep (includeOctave : Bool) (defaultOctave : Int) (out : List Chars)
    (tok0 : Chars) : List Chars :=
  let t := pyStrip tok0
  if t = [] then out else
  let commaPre := t.head? = some ','
  let t := if commaPre then t.tail else t
  let seg := segOfToken includeOctave defaultOctave t
  if seg = [] then out else
  if commaPre then
    match out with
    | [] => [',' :: seg]
    | _ :: _ => (out.dropLast ++ [pyRStrip (out.getLast?.getD []) ++ [',']]) ++ [seg]
  else out ++ [seg]

/-- `western_from_indian`. -/
def westernFromIndian (line : Chars) (includeOctave : Bool := false)
    (defaultOctave : Int := 4) : Chars :=
  let tokens := tokenizeFromIndian line
  if tokens = [] then [] else
  pyStrip (List.intercalate [' ']
    (tokens.foldl (westernStep includeOctave defaultOctave) []))

/-! ## Event compiler (the measure loop of `make_musicxml_per_song`) -/

/-- The parameters of `make_musicxml_per_song` that drive the event loop. -/
structure CompilerCfg where
  divisions : Nat
  beats : Nat
  defaultOctave : Int
  defaultNoteDuration : Nat
deriving DecidableEq

/-- `notes_per_measure = beats * divisions`. -/
def capacity (cfg : CompilerCfg) : Nat := cfg.beats * cfg.divisions

inductive SlurFlag where
  | start
  | stop
deriving DecidableEq

/-- `duration_to_type`. -/
def durationToType (durUnits : Nat) : Chars :=
  if durUnits ≤ 1 then ['e','i','g','h','t','h']
  else if durUnits = 2 then ['q','u','a','r','t','e','r']
  else if durUnits = 4 then ['h','a','l','f']
  else if durUnits = 8 then ['w','h','o','l','e']
  else ['q','u','a','r','t','e','r']

/-- One `<note>` as emitted by `emit_note`, tagged with the measure it lands in
and the unit position within that measure at emission time. -/
structure EmittedNote where
  measure : Nat
  pos : Nat
  isGrace : Bool
  dur : Nat
  typeLabel : Chars
  pn : ParsedNote
  slur : Option SlurFlag
deriving DecidableEq

/-- The loop state: `measure_no`, `current_units`, `slur_pending`. -/
structure CompState where
  measureNo : Nat
  currentUnits : Nat
  slurPending : Option SlurFlag
deriving DecidableEq

def initState : CompState := ⟨1, 0, none⟩

/-- The body of the event loop of `make_musicxml_per_song`: one event in,
updated state and emitted notes out. -/
def compileStep (cfg : CompilerCfg) (st : CompState) (ev : EvKind × Chars) :
    CompState × List EmittedNote :=
  match ev.1 with
  | EvKind.slurStart => ({ st with slurPending := some SlurFlag.start }, [])
  | EvKind.slurStop => ({ st with slurPending := some SlurFlag.stop }, [])
  | k =>
      let dur := if k = EvKind.hold then cfg.defaultNoteDuration * 2
        else cfg.defaultNoteDuration
      match parseNoteToken ev.2 cfg.defaultOctave with
      | none => (st, [])
      | some pn =>
          let overflow := capacity cfg < st.currentUnits + dur
          let measure := if overflow then st.measureNo + 1 else st.measureNo
          let units0 := if overflow then 0 else st.currentUnits
          let isGrace := k = EvKind.grace
          let e : EmittedNote :=
            ⟨measure, units0, isGrace, dur,
             if isGrace then ['e','i','g','h','t','h'] else durationToType dur,
             pn, st.slurPending⟩
          (⟨measure, if isGrace then units0 else units0 + dur, none⟩, [e])

/-- Fold `compileStep` over an event list. -/
def compileEventsFrom (cfg : CompilerCfg) (st : CompState) :
    List (EvKind × Chars) → CompState × List EmittedNote
  | [] => (st, [])
  | ev :: rest =>
      let r := compileStep cfg st ev
      let r2 := compileEventsFrom cfg r.1 rest
      (r2.1, r.2 ++ r2.2)

/-- Compile a token sequence from the start of a part: expand to events, then
run the measure loop from measure 1, position 0. -/
def compileTokens (cfg : CompilerCfg) (tokens : List Chars) : List EmittedNote :=
  (compileEventsFrom cfg initState (expandTokens tokens)).2

/-! ## Specification-side notions used by the claims -/

/-- The empty configuration object: present, but with every key missing. -/
def emptyMappingCfg : MappingCfg := ⟨none, none, none, none, none, none⟩

/-- The ninth note of the nine-note measure-filling example: first note of
measure 2, position 0. -/
def ninthNote : EmittedNote :=
  ⟨2, 0, false, 1, ['e', 'i', 'g', 'h', 't', 'h'], ⟨['C'], 0, 4, ['S'], ['C', '4']⟩, none⟩

/-- Join tokens with single spaces (the canonical rendering of a token
sequence as one notation line). -/
def joinSpace : List Chars → Chars
  | [] => []
  | [t] => t
  | t :: ts => t ++ ' ' :: joinSpace ts

/-- A canonical token as the tokenizer itself produces them: a plain note
(optional low-octave comma prefix, base letter, optional octave suffix,
optional hold colon), a meend `A~B` of two base letters, or a kan `(A)B` with
an optional octave suffix on the main note. -/
inductive Canon : Chars → Prop where
  | plain : ∀ (c : Bool) (b : Char) (o h : Chars), isBaseLetter b = true →
      (o = [] ∨ o = [apos] ∨ o = ['.']) → (h = [] ∨ h = [':']) →
      Canon ((if c then [','] else []) ++ b :: (o ++ h))
  | meend : ∀ a b, isBaseLetter a = true → isBaseLetter b = true →
      Canon [a, '~', b]
  | kan : ∀ a b o, isBaseLetter a = true → isBaseLetter b = true →
      (o = [] ∨ o = [apos] ∨ o = ['.']) → Canon (['(', a, ')', b] ++ o)

/-- The character classes a canonical token may use: no whitespace, no run
separator (`|`, ellipsis), no space. -/
def charOKb (x : Char) : Bool :=
  decide (isPySpace x = false ∧ x ≠ '|' ∧ x ≠ Char.ofNat 0x2026 ∧ x ≠ ' ')

/-- A concrete canonical sequence: `,S' G~R (R)G' m:`. -/
def canonExample : List Chars :=
  [[',', 'S', apos], ['G', '~', 'R'], ['(', 'R', ')', 'G', apos], ['m', ':']]

/-! ## Shared helper lemmas -/

/-- A base letter is none of the marker/separator characters and is a word
character; consequence of membership in `baseLetters`. -/
theorem base_facts (b : Char) (hb : isBaseLetter b = true) :
    b ≠ ',' ∧ b ≠ apos ∧ b ≠ curly ∧ b ≠ '.' ∧ b ≠ ':' ∧ b ≠ '-' ∧ b ≠ '~' ∧
    b ≠ '(' ∧ b ≠ ')' ∧ b ≠ '|' ∧ b ≠ Char.ofNat 0x2026 ∧
    isPySpace b = false ∧ isWordChar b = true := by
  simp only [isBaseLetter, baseLetters, List.contains_cons, List.contains_nil,
    Bool.or_eq_true, beq_iff_eq] at hb
  rcases hb with h|h|h|h|h|h|h|h|h|h|h|h|h
  all_goals first | (subst h; decide) | exact absurd h (by decide)

/-- A successful association lookup means some pair of the list has the key. -/
theorem assoc_mem_of_lookup (k : Chars) (l : List (Chars × α)) (v : α)
    (h : assocLookup k l = some v) : ∃ p ∈ l, p.1 = k := by
  induction l with
  | nil => exact absurd h (by simp [assocLookup])
  | cons p rest ih =>
      rw [assocLookup] at h
      split_ifs at h with hk
      · exact ⟨p, List.mem_cons_self _ _, hk.symm⟩
      · obtain ⟨q, hq, hq1⟩ := ih h
        exact ⟨q, List.mem_cons_of_mem _ hq, hq1⟩

/-- When all keys of the association list have length 1 and the probe does not,
the lookup fails. -/
theorem assoc_none_of_len (s : Chars) (l : List (Chars × α))
    (hl : ∀ p ∈ l, p.1.length = 1) (h : s.length ≠ 1) : assocLookup s l = none := by
  induction l with
  | nil => rfl
  | cons p rest ih =>
      rw [assocLookup]
      rw [if_neg]
      · exact ih (fun q hq => hl q (List.mem_cons_of_mem _ hq))
      · intro hk
        exact h (by rw [hk]; exact hl p (List.mem_cons_self _ _))

/-- A key found in `_TOKEN_TO_WESTERN` is one of the twelve base letters. -/
theorem isBase_of_lookup (b : Char) (v : Chars × Int)
    (h : assocLookup [b] tokenToWestern = some v) : isBaseLetter b = true := by
  obtain ⟨p, hp, hp1⟩ := assoc_mem_of_lookup _ _ _ h
  have hmem : tokenToWestern = [(['S'], ['C'], 0), (['R'], ['D'], 0), (['G'], ['E'], 0),
      (['m'], ['F'], 0), (['M'], ['F'], 1), (['P'], ['G'], 0), (['D'], ['A'], 0),
      (['N'], ['B'], 0), (['r'], ['D'], -1), (['g'], ['E'], -1), (['d'], ['A'], -1),
      (['n'], ['B'], -1)] := by decide
  rw [hmem] at hp
  fin_cases hp <;> (simp only [List.cons.injEq, and_true] at hp1; subst hp1; decide)

/-- A string whose length is not 1 is not a key of `_TOKEN_TO_WESTERN`. -/
theorem lookup_none_of_len_ne_one (s : Chars) (h : s.length ≠ 1) :
    assocLookup s tokenToWestern = none :=
  assoc_none_of_len s _ (by decide) h

/-- Enumeration of the twelve base letters. -/
theorem base_eq_cases (b : Char) (hb : isBaseLetter b = true) :
    b = 'S' ∨ b = 'R' ∨ b = 'G' ∨ b = 'm' ∨ b = 'M' ∨ b = 'P' ∨ b = 'D' ∨ b = 'N' ∨
    b = 'r' ∨ b = 'g' ∨ b = 'd' ∨ b = 'n' := by
  simp only [isBaseLetter, baseLetters, List.contains_cons, List.contains_nil,
    Bool.or_eq_true, beq_iff_eq] at hb
  rcases hb with h|h|h|h|h|h|h|h|h|h|h|h|h
  all_goals first | exact absurd h (by decide) | tauto

theorem sp_comma : isPySpace ',' = false := by decide

theorem sp_apos : isPySpace apos = false := by decide

theorem sp_dot : isPySpace '.' = false := by decide

theorem sp_colon : isPySpace ':' = false := by decide

theorem sp_tilde : isPySpace '~' = false := by decide

theorem sp_lp : isPySpace '(' = false := by decide

theorem sp_rp : isPySpace ')' = false := by decide

theorem nc_comma : ¬(',' = curly) := by decide

theorem nc_apos : ¬(apos = curly) := by decide

theorem nc_dot : ¬('.' = curly) := by decide

theorem nc_colon : ¬(':' = curly) := by decide

theorem nc_tilde : ¬('~' = curly) := by decide

theorem nc_lp : ¬('(' = curly) := by decide

theorem nc_rp : ¬(')' = curly) := by decide

/-! ## Claims -/

/-- C8 counterexample: a configuration that is present but lacks
`token_to_western` is returned as-is by the loader, and the token table built
from it is empty — not the built-in default table. -/
theorem missing_keys_no_fallback_cex :
    loadMappingCfg (some emptyMappingCfg) = emptyMappingCfg ∧
    extractTokenToWestern (loadMappingCfg (some emptyMappingCfg)) = [] ∧
    extractTokenToWestern mappingCfgDefault ≠ [] := by
  decide

/-- C8 (amended): the loader falls back to the built-in defaults only when the
configuration file is missing or unreadable; a configuration that is present is
used as-is even when keys are missing, in which case the derived
`token_to_western` table is empty. -/
theorem load_mapping_amended :
    (∀ cfg : MappingCfg, loadMappingCfg (some cfg) = cfg) ∧
    loadMappingCfg none = mappingCfgDefault ∧
    extractTokenToWestern emptyMappingCfg = [] := by
  exact ⟨fun _ => rfl, rfl, rfl⟩

/-- C6 counterexample: on the mixed line `"S Re Ga"` the tokenizer returns only
the letter-style token `S`; the word-style fragments `Re` and `Ga` contribute
nothing (the claim expects tokens for them). -/
theorem mixed_style_cex :
    tokenizeFromIndian "S Re Ga".data = [['S']] ∧
    ['R'] ∉ tokenizeFromIndian "S Re Ga".data ∧
    ['G'] ∉ tokenizeFromIndian "S Re Ga".data := by
  decide

/-- C6 (amended): the word→letter translation is a fallback pass, not a merge:
whenever the letter-style pass recognizes at least one token in the line, its
result is returned unchanged and word-style fragments are dropped; in
particular `"S Re Ga"` tokenizes to `["S"]`. -/
theorem letter_pass_short_circuits (line : Chars) (h : tokenizeFallback line ≠ []) :
    tokenizeFromIndian line = tokenizeFallback line := by
  simp only [tokenizeFromIndian, ne_eq, if_pos h]

/-- Witness for C6's amended theorem at the concrete line `"S Re Ga"`. -/
theorem letter_pass_short_circuits_witness :
    tokenizeFallback "S Re Ga".data ≠ [] ∧
    tokenizeFromIndian "S Re Ga".data = tokenizeFallback "S Re Ga".data :=
  ⟨by decide, letter_pass_short_circuits "S Re Ga".data (by decide)⟩

/-- C4 counterexample: a fragment with a leading low-octave comma keeps the
comma as a prefix on the canonical token; it is not re-attached as a trailing
dot. -/
theorem low_comma_kept_cex :
    tokenizeFallback [',', 'S'] = [[',', 'S']] ∧
    tokenizeFallback [',', 'S'] ≠ [['S', '.']] := by
  decide

/-- C4 (amended): `norm_note` strips a leading low-octave comma and re-attaches
it as a *comma prefix* on the canonical token (not as a trailing dot); a
trailing-dot low mark in the input is likewise preserved as a dot suffix, so
both spellings survive tokenization unchanged. -/
theorem low_comma_kept (b : Char) (hb : isBaseLetter b = true) :
    tokenizeFallback [',', b] = [[',', b]] ∧
    tokenizeFallback [b, '.'] = [[b, '.']] := by
  simp only [isBaseLetter, baseLetters, List.contains_cons, List.contains_nil,
    Bool.or_eq_true, beq_iff_eq] at hb
  rcases hb with h|h|h|h|h|h|h|h|h|h|h|h|h
  all_goals first | (subst h; exact ⟨by decide, by decide⟩) | exact absurd h (by decide)

/-- Witness for C4's amended theorem at `b = 'S'`. -/
theorem low_comma_kept_witness :
    isBaseLetter 'S' = true ∧ tokenizeFallback [',', 'S'] = [[',', 'S']] :=
  ⟨by decide, (low_comma_kept 'S' (by decide)).1⟩

/-- C5 counterexample: on a token carrying both a low-octave comma and a high
apostrophe (`,S'`), resolution yields the default octave 4 (the markers
cancel), not `4 - 1 = 3` as the claim's low-takes-precedence clause predicts. -/
theorem both_octave_markers_cex :
    (parseNoteToken [',', 'S', apos] 4).map ParsedNote.octave = some 4 ∧
    (parseNoteToken [',', 'S', apos] 4).map ParsedNote.octave ≠ some 3 := by
  decide

/-- C5 (amended): for every base letter in the mapping table, the high marker
gives `d + 1`, the low markers (comma prefix or dot suffix) give `d - 1`, no
marker gives `d`; and when both a comma prefix and an apostrophe suffix are
present, the two adjustments cancel and the octave is `d`. -/
theorem octave_arithmetic (b : Char) (v : Chars × Int) (d : Int)
    (h : assocLookup [b] tokenToWestern = some v) :
    (parseNoteToken [b] d).map ParsedNote.octave = some d ∧
    (parseNoteToken [b, apos] d).map ParsedNote.octave = some (d + 1) ∧
    (parseNoteToken [',', b] d).map ParsedNote.octave = some (d - 1) ∧
    (parseNoteToken [b, '.'] d).map ParsedNote.octave = some (d - 1) ∧
    (parseNoteToken [',', b, apos] d).map ParsedNote.octave = some d := by
  have hb := isBase_of_lookup b v h
  obtain ⟨h1, h2, h3, h4, h5, -, -, -, -, -, -, h12, -⟩ := base_facts b hb
  refine ⟨?_, ?_, ?_, ?_, ?_⟩
  · have hstrip : pyStrip [b] = [b] := by simp [pyStrip, List.dropWhile, h12]
    have hmap : [b].map (fun c => if c = curly then apos else c) = [b] := by simp [h3]
    have hps : parseStrip [b] = (false, false, [b]) := by
      simp [parseStrip, komalInline, h1, h2, h3, h4, h5]
    rw [parseNoteToken, hstrip]
    simp only [hmap, hps, h]
    simp
  · have hstrip : pyStrip [b, apos] = [b, apos] := by
      simp [pyStrip, List.dropWhile, h12, sp_apos]
    have hmap : [b, apos].map (fun c => if c = curly then apos else c) = [b, apos] := by
      simp [h3, nc_apos]
    have hps : parseStrip [b, apos] = (false, true, [b]) := by
      simp [parseStrip, komalInline, h1, h2, h3, h4, h5]
    rw [parseNoteToken, hstrip]
    simp only [hmap, hps, h]
    simp
  · have hstrip : pyStrip [',', b] = [',', b] := by
      simp [pyStrip, List.dropWhile, h12, sp_comma]
    have hmap : [',', b].map (fun c => if c = curly then apos else c) = [',', b] := by
      simp [h3, nc_comma]
    have hps : parseStrip [',', b] = (true, false, [b]) := by
      simp [parseStrip, komalInline, h1, h2, h3, h4, h5]
    rw [parseNoteToken, hstrip]
    simp only [hmap, hps, h]
    simp
  · have hstrip : pyStrip [b, '.'] = [b, '.'] := by
      simp [pyStrip, List.dropWhile, h12, sp_dot]
    have hmap : [b, '.'].map (fun c => if c = curly then apos else c) = [b, '.'] := by
      simp [h3, nc_dot]
    have hps : parseStrip [b, '.'] = (true, false, [b]) := by
      simp [parseStrip, komalInline, h1, h2, h3, h4, h5,
        show ¬('.' = apos) from by decide]
    rw [parseNoteToken, hstrip]
    simp only [hmap, hps, h]
    simp
  · have hstrip : pyStrip [',', b, apos] = [',', b, apos] := by
      simp [pyStrip, List.dropWhile, h12, sp_comma, sp_apos]
    have hmap : [',', b, apos].map (fun c => if c = curly then apos else c) =
        [',', b, apos] := by
      simp [h3, nc_comma, nc_apos]
    have hps : parseStrip [',', b, apos] = (true, true, [b]) := by
      simp [parseStrip, komalInline, h1, h2, h3, h4, h5]
    rw [parseNoteToken, hstrip]
    simp only [hmap, hps, h]
    simp

/-- Witness for C5's amended theorem at `b = 'S'`, `d = 4`. -/
theorem octave_arithmetic_witness :
    assocLookup ['S'] tokenToWestern = some (['C'], 0) ∧
    (parseNoteToken [',', 'S', apos] 4).map ParsedNote.octave = some 4 :=
  ⟨by decide, (octave_arithmetic 'S' (['C'], 0) 4 (by decide)).2.2.2.2⟩

/-- C7: a token whose stripped base letter is not a key of `token_to_western`
resolves to `none` (for every default octave), and the event compiler skips the
corresponding note, hold, or grace event: no note is emitted, no duration is
consumed, and the whole loop state is untouched. -/
theorem unknown_base_skipped (tok : Chars)
    (h : assocLookup (resolveBase tok) tokenToWestern = none) :
    (∀ d : Int, parseNoteToken tok d = none) ∧
    (∀ (cfg : CompilerCfg) (st : CompState),
      compileStep cfg st (EvKind.note, tok) = (st, []) ∧
      compileStep cfg st (EvKind.hold, tok) = (st, []) ∧
      compileStep cfg st (EvKind.grace, tok) = (st, [])) := by
  have hp : ∀ d : Int, parseNoteToken tok d = none := by
    intro d
    rw [parseNoteToken]
    by_cases hre : pyStrip tok = []
    · simp [hre]
    · have h' : assocLookup
          (parseStrip ((pyStrip tok).map (fun c => if c = curly then apos else c))).2.2
          tokenToWestern = none := h
      simp only [if_neg hre, h']
  refine ⟨hp, fun cfg st => ⟨?_, ?_, ?_⟩⟩ <;> simp [compileStep, hp]

/-- Witness for C7 at the stray letter `X`. -/
theorem unknown_base_skipped_witness :
    assocLookup (resolveBase ['X']) tokenToWestern = none ∧
    parseNoteToken ['X'] 4 = none :=
  ⟨by decide, (unknown_base_skipped ['X'] (by decide)).1 4⟩

/-- C3 counterexample: the token `(R)G:` (a kan whose main note carries a hold
marker) is matched by the hold rule first and expands to the single event
`hold("(R)G")` — not to `grace(R)` followed by `hold(G)` — and since `(R)G`
resolves to no pitch the compiler emits nothing at all for it. -/
theorem kan_hold_token_cex :
    expandTokens [['(', 'R', ')', 'G', ':']] = [(EvKind.hold, ['(', 'R', ')', 'G'])] ∧
    expandTokens [['(', 'R', ')', 'G', ':']] ≠
      [(EvKind.grace, ['R']), (EvKind.hold, ['G'])] ∧
    compileTokens ⟨2, 4, 4, 1⟩ [['(', 'R', ')', 'G', ':']] = [] := by
  decide

/-- C3 (amended): for every kan token `(A)B` with a trailing hold marker, the
hold rule fires before the kan rule: the expander yields the single event
`hold((A)B)`, whose payload fails note resolution, so compiling it emits no
event at all (no grace, no hold). -/
theorem kan_hold_token (a b : Char) (ha : isBaseLetter a = true)
    (hb : isBaseLetter b = true) (cfg : CompilerCfg) :
    expandTokens [['(', a, ')', b, ':']] = [(EvKind.hold, ['(', a, ')', b])] ∧
    (∀ d : Int, parseNoteToken ['(', a, ')', b] d = none) ∧
    compileTokens cfg [['(', a, ')', b, ':']] = [] := by
  obtain ⟨-, ha2, ha3, -, -, -, -, -, -, -, -, ha12, -⟩ := base_facts a ha
  obtain ⟨-, hb2, hb3, hb4, -, -, -, -, -, -, -, hb12, -⟩ := base_facts b hb
  have hstrip : pyStrip ['(', a, ')', b, ':'] = ['(', a, ')', b, ':'] := by
    simp [pyStrip, List.dropWhile, ha12, hb12, sp_lp, sp_rp, sp_colon]
  have hexp : expandTokens [['(', a, ')', b, ':']] =
      [(EvKind.hold, ['(', a, ')', b])] := by
    rw [expandTokens, hstrip]
    simp [expandTokens]
  have hparse : ∀ d : Int, parseNoteToken ['(', a, ')', b] d = none := by
    have hbase : resolveBase ['(', a, ')', b] = ['(', a, ')', b] := by
      have hstrip2 : pyStrip ['(', a, ')', b] = ['(', a, ')', b] := by
        simp [pyStrip, List.dropWhile, ha12, hb12, sp_lp, sp_rp]
      have hmap : ['(', a, ')', b].map (fun c => if c = curly then apos else c) =
          ['(', a, ')', b] := by
        simp [ha3, hb3, nc_lp, nc_rp]
      rw [resolveBase, hstrip2, hmap]
      simp [parseStrip, komalInline, hb2, hb4]
    exact (unknown_base_skipped ['(', a, ')', b]
      (by rw [hbase]; exact lookup_none_of_len_ne_one _ (by simp))).1
  refine ⟨hexp, hparse, ?_⟩
  rw [compileTokens, hexp]
  simp [compileEventsFrom, compileStep, hparse]

/-- Witness for C3's amended theorem at `a = 'R'`, `b = 'G'`. -/
theorem kan_hold_token_witness :
    isBaseLetter 'R' = true ∧ isBaseLetter 'G' = true ∧
    compileTokens ⟨2, 4, 4, 2⟩ [['(', 'R', ')', 'G', ':']] = [] :=
  ⟨by decide, by decide, (kan_hold_token 'R' 'G' (by decide) (by decide) ⟨2, 4, 4, 2⟩).2.2⟩

/-- C2 counterexample: with capacity 8 (4 beats × 2 divisions), after eight
plain notes fill the first measure, the grace of a kan token itself triggers
the overflow check: the grace is emitted as the first note of measure 2, so a
grace event does close the current measure and open a new one. -/
theorem grace_opens_new_measure_cex :
    (compileTokens ⟨2, 4, 4, 1⟩ (List.replicate 8 ['S'] ++ [['(', 'R', ')', 'G']])).map
      (fun e => (e.isGrace, e.measure)) =
      [(false, 1), (false, 1), (false, 1), (false, 1), (false, 1), (false, 1),
       (false, 1), (false, 1), (true, 2), (false, 2)] := by
  decide

/-- C2 (amended): a grace event never advances the position inside the measure,
but it is not exempt from the overflow check: it is tested with the default
note duration, and when the current measure cannot fit that duration the grace
itself closes the measure and opens a new one (position resets to 0 and the
grace is emitted into the new measure). -/
theorem grace_overflow_check (cfg : CompilerCfg) (st : CompState) (p : Chars)
    (pn : ParsedNote) (h : parseNoteToken p cfg.defaultOctave = some pn) :
    (compileStep cfg st (EvKind.grace, p)).1.currentUnits ≤ st.currentUnits ∧
    (st.currentUnits + cfg.defaultNoteDuration ≤ capacity cfg →
      (compileStep cfg st (EvKind.grace, p)).1.measureNo = st.measureNo ∧
      (compileStep cfg st (EvKind.grace, p)).1.currentUnits = st.currentUnits) ∧
    (capacity cfg < st.currentUnits + cfg.defaultNoteDuration →
      (compileStep cfg st (EvKind.grace, p)).1.measureNo = st.measureNo + 1 ∧
      (compileStep cfg st (EvKind.grace, p)).1.currentUnits = 0 ∧
      ((compileStep cfg st (EvKind.grace, p)).2.map EmittedNote.measure) =
        [st.measureNo + 1]) := by
  simp only [compileStep, h]
  by_cases hov : capacity cfg < st.currentUnits + cfg.defaultNoteDuration
  · simp [hov]
  · simp [hov]

/-- Witness for C2's amended theorem: a full measure (8 of 8 units used) and
the grace token `R`. -/
theorem grace_overflow_check_witness :
    parseNoteToken ['R'] (4 : Int) = some ⟨['D'], 0, 4, ['R'], ['D', '4']⟩ ∧
    (compileStep ⟨2, 4, 4, 1⟩ ⟨1, 8, none⟩ (EvKind.grace, ['R'])).1.measureNo = 1 + 1 ∧
    (compileStep ⟨2, 4, 4, 1⟩ ⟨1, 8, none⟩ (EvKind.grace, ['R'])).1.currentUnits = 0 ∧
    ((compileStep ⟨2, 4, 4, 1⟩ ⟨1, 8, none⟩ (EvKind.grace, ['R'])).2.map
      EmittedNote.measure) = [1 + 1] :=
  ⟨by decide, (grace_overflow_check ⟨2, 4, 4, 1⟩ ⟨1, 8, none⟩ ['R']
    ⟨['D'], 0, 4, ['R'], ['D', '4']⟩ (by decide)).2.2 (by decide)⟩

/-- One compiler step keeps the position within capacity and emits only notes
that fit entirely inside their measure (given that a doubled default duration
fits in a measure). -/
theorem compileStep_inv (cfg : CompilerCfg)
    (hcap : cfg.defaultNoteDuration * 2 ≤ capacity cfg) (st : CompState)
    (hst : st.currentUnits ≤ capacity cfg) (ev : EvKind × Chars) :
    (compileStep cfg st ev).1.currentUnits ≤ capacity cfg ∧
    ∀ e ∈ (compileStep cfg st ev).2,
      e.isGrace = false → e.pos + e.dur ≤ capacity cfg := by
  obtain ⟨k, p⟩ := ev
  have hdur : ∀ kk : EvKind,
      (if kk = EvKind.hold then cfg.defaultNoteDuration * 2
        else cfg.defaultNoteDuration) ≤ capacity cfg := by
    intro kk
    by_cases hk : kk = EvKind.hold <;> simp [hk] <;> omega
  cases k with
  | slurStart => exact ⟨by simp [compileStep, hst], by simp [compileStep]⟩
  | slurStop => exact ⟨by simp [compileStep, hst], by simp [compileStep]⟩
  | note =>
      cases hp : parseNoteToken p cfg.defaultOctave with
      | none => exact ⟨by simp [compileStep, hp, hst], by simp [compileStep, hp]⟩
      | some pn =>
          by_cases hov : capacity cfg <
              st.currentUnits + cfg.defaultNoteDuration
          · refine ⟨by simp [compileStep, hp, hov]; omega, ?_⟩
            intro e he _
            simp [compileStep, hp, hov] at he
            subst he
            simp
            omega
          · refine ⟨by simp [compileStep, hp, hov]; omega, ?_⟩
            intro e he _
            simp [compileStep, hp, hov] at he
            subst he
            simp
            omega
  | hold =>
      cases hp : parseNoteToken p cfg.defaultOctave with
      | none => exact ⟨by simp [compileStep, hp, hst], by simp [compileStep, hp]⟩
      | some pn =>
          by_cases hov : capacity cfg <
              st.currentUnits + cfg.defaultNoteDuration * 2
          · refine ⟨by simp [compileStep, hp, hov]; omega, ?_⟩
            intro e he _
            simp [compileStep, hp, hov] at he
            subst he
            simp
            omega
          · refine ⟨by simp [compileStep, hp, hov]; omega, ?_⟩
            intro e he _
            simp [compileStep, hp, hov] at he
            subst he
            simp
            omega
  | grace =>
      cases hp : parseNoteToken p cfg.defaultOctave with
      | none => exact ⟨by simp [compileStep, hp, hst], by simp [compileStep, hp]⟩
      | some pn =>
          by_cases hov : capacity cfg <
              st.currentUnits + cfg.defaultNoteDuration
          · refine ⟨by simp [compileStep, hp, hov], ?_⟩
            intro e he hg
            simp [compileStep, hp, hov] at he
            subst he
            simp at hg
          · refine ⟨by simp [compileStep, hp, hov]; omega, ?_⟩
            intro e he hg
            simp [compileStep, hp, hov] at he
            subst he
            simp at hg

/-- Every note emitted by the event loop (from any in-capacity state) fits
entirely inside its measure. -/
theorem compileEvents_inv (cfg : CompilerCfg)
    (hcap : cfg.defaultNoteDuration * 2 ≤ capacity cfg)
    (events : List (EvKind × Chars)) :
    ∀ st : CompState, st.currentUnits ≤ capacity cfg →
      ∀ e ∈ (compileEventsFrom cfg st events).2,
        e.isGrace = false → e.pos + e.dur ≤ capacity cfg := by
  induction events with
  | nil => intro st _ e he; simp [compileEventsFrom] at he
  | cons ev rest ih =>
      intro st hst e he
      rw [compileEventsFrom] at he
      simp only [List.mem_append] at he
      obtain ⟨h1, h2⟩ := compileStep_inv cfg hcap st hst ev
      rcases he with he | he
      · exact h2 e he
      · exact ih (compileStep cfg st ev).1 h1 e he

/-- C1: with measure capacity `beats * divisions`, whenever a duration-consuming
event would overflow the current measure the compiler closes it and opens a new
one before emitting, so (whenever a doubled default duration fits in a measure)
every emitted non-grace note lies entirely inside its measure
(`pos + dur ≤ capacity`); and concretely, with capacity 8 and nine plain notes,
notes 1–8 fill measure 1 at positions 0–7 and the 9th note opens measure 2 at
position 0. -/
theorem measure_overflow_no_spanning :
    (∀ (cfg : CompilerCfg) (tokens : List Chars),
      cfg.defaultNoteDuration * 2 ≤ capacity cfg →
      ∀ e ∈ compileTokens cfg tokens,
        e.isGrace = false → e.pos + e.dur ≤ capacity cfg) ∧
    (compileTokens ⟨2, 4, 4, 1⟩ (List.replicate 9 ['S'])).map
      (fun e => (e.measure, e.pos)) =
      [(1, 0), (1, 1), (1, 2), (1, 3), (1, 4), (1, 5), (1, 6), (1, 7), (2, 0)] := by
  constructor
  · intro cfg tokens hcap e he hg
    exact compileEvents_inv cfg hcap (expandTokens tokens) initState
      (by simp [initState]) e he hg
  · decide

/-- Witness for C1 at the nine-note example: the ninth emitted note is in the
compiler output and fits inside its measure. -/
theorem measure_overflow_no_spanning_witness :
    ninthNote ∈ compileTokens ⟨2, 4, 4, 1⟩ (List.replicate 9 ['S']) ∧
    ninthNote.pos + ninthNote.dur ≤ capacity ⟨2, 4, 4, 1⟩ :=
  ⟨by decide, measure_overflow_no_spanning.1 ⟨2, 4, 4, 1⟩ (List.replicate 9 ['S'])
    (by decide) ninthNote (by decide) (by decide)⟩

/-- C9: when the transliterator renders a token bearing a leading low-octave
comma, the comma is appended to the previously rendered segment when one
exists (back-binding), and is prefixed to the current segment only when this
token produces the first rendered segment of the line. -/
theorem comma_binds_backward (io : Bool) (d : Int) (out : List Chars) (tok : Chars)
    (h1 : (pyStrip tok).head? = some ',')
    (h2 : segOfToken io d (pyStrip tok).tail ≠ []) :
    (out = [] → westernStep io d out tok = [',' :: segOfToken io d (pyStrip tok).tail]) ∧
    (∀ (ys : List Chars) (y : Chars), out = ys ++ [y] →
      westernStep io d out tok =
        ys ++ [pyRStrip y ++ [','], segOfToken io d (pyStrip tok).tail]) := by
  have hne : pyStrip tok ≠ [] := by
    intro hh
    rw [hh] at h1
    simp at h1
  constructor
  · intro ho
    subst ho
    rw [westernStep]
    simp [hne, h1, h2]
  · intro ys y ho
    subst ho
    rw [westernStep]
    rcases ys with _ | ⟨a, ys⟩
    · simp [hne, h1, h2]
    · simp only [List.cons_append]
      simp [hne, h1, h2]
      rw [show (a :: (ys ++ [y])) = ((a :: ys) ++ [y]) from rfl, List.dropLast_concat,
        List.getLast?_concat]
      simp

/-- Witness for C9: rendering `,P` after a previous segment `G` appends the
comma to `G` and emits the new segment without one. -/
theorem comma_binds_backward_witness :
    (pyStrip [',', 'P']).head? = some ',' ∧
    westernStep false 4 [['G']] [',', 'P'] = [['G', ','], ['G']] :=
  ⟨by decide, (comma_binds_backward false 4 [['G']] [',', 'P'] (by decide)
    (by decide)).2 [] ['G'] rfl⟩


theorem splitSpace_ne_nil (l : Chars) : splitSpace l ≠ [] := by
  induction l with
  | nil => simp [splitSpace]
  | cons c rest ih =>
      rw [splitSpace]
      split_ifs
      · simp
      · rcases hs : splitSpace rest with _ | ⟨r, rs⟩
        · simp
        · simp [hs]

theorem splitSpace_nospace (t : Chars) (h : ∀ c ∈ t, c ≠ ' ') : splitSpace t = [t] := by
  induction t with
  | nil => rfl
  | cons c rest ih =>
      rw [splitSpace, if_neg (h c (List.mem_cons_self _ _))]
      rw [ih (fun x hx => h x (List.mem_cons_of_mem _ hx))]

theorem splitSpace_chunk (t : Chars) (h : ∀ c ∈ t, c ≠ ' ') (l : Chars) :
    ∀ r rs, splitSpace l = r :: rs → splitSpace (t ++ l) = (t ++ r) :: rs := by
  induction t with
  | nil => intro r rs hl; simpa using hl
  | cons c rest ih =>
      intro r rs hl
      rw [List.cons_append, splitSpace, if_neg (h c (List.mem_cons_self _ _))]
      rw [ih (fun x hx => h x (List.mem_cons_of_mem _ hx)) r rs hl]
      rfl

theorem splitSpace_joinSpace (toks : List Chars)
    (h : ∀ t ∈ toks, ∀ c ∈ t, c ≠ ' ') (hne : toks ≠ []) :
    splitSpace (joinSpace toks) = toks := by
  induction toks with
  | nil => exact absurd rfl hne
  | cons t ts ih =>
      rcases ts with _ | ⟨t', ts'⟩
      · exact splitSpace_nospace t (h t (List.mem_cons_self _ _))
      · have hih : splitSpace (joinSpace (t' :: ts')) = t' :: ts' :=
          ih (fun x hx => h x (List.mem_cons_of_mem _ hx)) (List.cons_ne_nil _ _)
        have hrest : splitSpace (' ' :: joinSpace (t' :: ts')) = [] :: t' :: ts' := by
          rw [splitSpace, if_pos rfl, hih]
        rw [joinSpace, splitSpace_chunk t (h t (List.mem_cons_self _ _)) _ _ _ hrest,
          List.append_nil]
        exact List.cons_ne_nil _ _


theorem collapseWSAux_chunk (t : Chars) (hns : ∀ c ∈ t, isPySpace c = false)
    (hne : t ≠ []) (b : Bool) (rest : Chars) :
    collapseWSAux b (t ++ rest) = t ++ collapseWSAux false rest := by
  induction t generalizing b with
  | nil => exact absurd rfl hne
  | cons c t' ih =>
      rw [List.cons_append, collapseWSAux, hns c (List.mem_cons_self _ _)]
      simp only [Bool.false_eq_true, if_false]
      rcases t' with _ | ⟨d, t''⟩
      · rfl
      · rw [ih (fun x hx => hns x (List.mem_cons_of_mem _ hx)) (List.cons_ne_nil _ _) false]
        rfl

theorem collapseWS_joinSpace (toks : List Chars)
    (h : ∀ t ∈ toks, t ≠ [] ∧ ∀ c ∈ t, isPySpace c = false) :
    ∀ b : Bool, collapseWSAux b (joinSpace toks) = joinSpace toks := by
  induction toks with
  | nil => intro b; rfl
  | cons t ts ih =>
      intro b
      rcases ts with _ | ⟨t', ts'⟩
      · have hh := h t (List.mem_cons_self _ _)
        have h2 := collapseWSAux_chunk t hh.2 hh.1 b []
        rw [show collapseWSAux false [] = [] from rfl, List.append_nil] at h2
        exact h2
      · have hh := h t (List.mem_cons_self _ _)
        rw [joinSpace, collapseWSAux_chunk t hh.2 hh.1 b]
        · rw [collapseWSAux]
          simp only [show isPySpace ' ' = true from rfl, if_true]
          rw [ih (fun x hx => h x (List.mem_cons_of_mem _ hx)) true]
          simp
        · exact List.cons_ne_nil _ _

theorem pyStrip_of_ends (l : Chars) (c c' : Char) (h1 : l.head? = some c)
    (h2 : isPySpace c = false) (h3 : l.getLast? = some c')
    (h4 : isPySpace c' = false) : pyStrip l = l := by
  rcases l with _ | ⟨a, t⟩
  · simp at h1
  · have ha : a = c := by simpa using h1
    have h2a : isPySpace a = false := by rw [ha]; exact h2
    rw [pyStrip, List.dropWhile_cons, h2a]
    simp only [Bool.false_eq_true, if_false]
    rcases hrev : (a :: t).reverse with _ | ⟨d, r⟩
    · exact absurd hrev (by simp)
    · have hd : d = c' := by
        have hh := List.head?_reverse (a :: t)
        rw [hrev, h3, List.head?_cons] at hh
        exact Option.some.injEq .. ▸ hh
      have h4d : isPySpace d = false := by rw [hd]; exact h4
      rw [List.dropWhile_cons, h4d]
      simp only [Bool.false_eq_true, if_false]
      rw [← hrev, List.reverse_reverse]

theorem mem_joinSpace (toks : List Chars) (x : Char) (hx : x ∈ joinSpace toks) :
    x = ' ' ∨ ∃ t ∈ toks, x ∈ t := by
  induction toks with
  | nil => simp [joinSpace] at hx
  | cons t ts ih =>
      rcases ts with _ | ⟨t', ts'⟩
      · exact Or.inr ⟨t, List.mem_cons_self _ _, hx⟩
      · rw [show joinSpace (t :: t' :: ts') = t ++ ' ' :: joinSpace (t' :: ts') from rfl] at hx
        rcases List.mem_append.mp hx with hx | hx
        · exact Or.inr ⟨t, List.mem_cons_self _ _, hx⟩
        · rcases List.mem_cons.mp hx with rfl | hx
          · exact Or.inl rfl
          · rcases ih hx with h | ⟨u, hu, hxu⟩
            · exact Or.inl h
            · exact Or.inr ⟨u, List.mem_cons_of_mem _ hu, hxu⟩

theorem map_pipe_id (l : Chars) (h : ∀ c ∈ l, c ≠ Char.ofNat 124) :
    l.map (fun c => if c = '|' then ' ' else c) = l := by
  induction l with
  | nil => rfl
  | cons c rest ih =>
      rw [List.map_cons, if_neg (h c (List.mem_cons_self _ _)),
        ih (fun x hx => h x (List.mem_cons_of_mem _ hx))]

theorem foldr_ellipsis_id (l : Chars) (h : ∀ c ∈ l, c ≠ Char.ofNat 0x2026) :
    l.foldr (fun c acc =>
      if c = Char.ofNat 0x2026 then ' ' :: '.' :: '.' :: '.' :: ' ' :: acc
      else c :: acc) [] = l := by
  induction l with
  | nil => rfl
  | cons c rest ih =>
      rw [List.foldr_cons, ih (fun x hx => h x (List.mem_cons_of_mem _ hx)),
        if_neg (h c (List.mem_cons_self _ _))]



theorem charOKb_base (b : Char) (hb : isBaseLetter b = true) : charOKb b = true := by
  obtain ⟨-, -, -, -, -, -, -, -, -, h10, h11, h12, -⟩ := base_facts b hb
  have hsp : b ≠ ' ' := by
    intro heq
    rw [heq] at h12
    exact absurd h12 (by decide)
  simp [charOKb, h10, h11, h12, hsp]

theorem charOKb_comma : charOKb ',' = true := by decide

theorem charOKb_apos : charOKb apos = true := by decide

theorem charOKb_dot : charOKb '.' = true := by decide

theorem charOKb_colon : charOKb ':' = true := by decide

theorem charOKb_tilde : charOKb '~' = true := by decide

theorem charOKb_lp : charOKb '(' = true := by decide

theorem charOKb_rp : charOKb ')' = true := by decide

theorem canon_charOK (t : Chars) (h : Canon t) : t ≠ [] ∧ t.all charOKb = true := by
  cases h with
  | plain c b o hh hb ho hhold =>
      have hbase := charOKb_base b hb
      cases c <;> rcases ho with rfl | rfl | rfl <;> rcases hhold with rfl | rfl <;>
        exact ⟨by simp, by simp [hbase, charOKb_comma, charOKb_apos, charOKb_dot,
          charOKb_colon]⟩
  | meend a b ha hb =>
      exact ⟨by simp, by simp [charOKb_base a ha, charOKb_base b hb, charOKb_tilde]⟩
  | kan a b o ha hb ho =>
      rcases ho with rfl | rfl | rfl <;>
        exact ⟨by simp, by simp [charOKb_base a ha, charOKb_base b hb, charOKb_lp,
          charOKb_rp, charOKb_apos, charOKb_dot]⟩

theorem normNote_canon (c : Bool) (b : Char) (o : Chars) (hb : isBaseLetter b = true)
    (ho : o = [] ∨ o = [apos] ∨ o = ['.']) :
    normNote ((if c then [','] else []) ++ b :: o) =
      (if c then [','] else []) ++ b :: o := by
  obtain ⟨h1, h2, h3, h4, h5, -, -, -, -, -, -, h12, -⟩ := base_facts b hb
  cases c <;> rcases ho with rfl | rfl | rfl <;>
    simp [normNote, pyStrip, List.dropWhile, komalInline, removeSub, removeSubAux,
      isPfx, h1, h2, h3, h4, h5, h12, sp_comma, sp_apos, sp_dot,
      show ¬(apos = curly) from by decide, show ¬('.' = curly) from by decide,
      show ¬('.' = apos) from by decide]
theorem containsSub_dots_cons (x : Char) (l : Chars) (hx : ¬(x = '.')) :
    containsSub ['.', '.', '.'] (x :: l) = containsSub ['.', '.', '.'] l := by
  have hx' : ¬('.' = x) := fun hh => hx hh.symm
  rw [containsSub]
  simp [isPfx, hx']

theorem containsSub_dots_two (x y : Char) (l : Chars) (hy : ¬(y = '.')) :
    containsSub ['.', '.', '.'] (x :: y :: l) =
      containsSub ['.', '.', '.'] (y :: l) := by
  have hy' : ¬('.' = y) := fun hh => hy hh.symm
  rw [containsSub]
  simp [isPfx, hy']

theorem holdDetected_plain_false (c : Bool) (b : Char) (o : Chars)
    (hb : isBaseLetter b = true) (ho : o = [] ∨ o = [apos] ∨ o = ['.']) :
    holdDetected ((if c then [','] else []) ++ b :: o) = false := by
  obtain ⟨-, -, -, h4, h5, h6, -, -, -, -, -, -, -⟩ := base_facts b hb
  cases c <;> rcases ho with rfl | rfl | rfl <;>
    simp [holdDetected, containsSub, isPfx, endsWithRun, h4, h5, h6,
      show ¬('.' = apos) from by decide, show ¬(apos = '-') from by decide,
      show ¬(apos = ':') from by decide, show ¬(apos = '.') from by decide,
      show ¬('.' = ',') from by decide, show ¬(',' = '-') from by decide,
      show ¬(',' = ':') from by decide, show ¬(',' = '.') from by decide,
      show ¬('.' = '-') from by decide, show ¬('.' = ':') from by decide,
      fun hh : b = '.' => h4 hh, fun hh : ('.' : Char) = b => h4 hh.symm]

theorem holdDetected_plain_true (c : Bool) (b : Char) (o : Chars)
    (hb : isBaseLetter b = true) (ho : o = [] ∨ o = [apos] ∨ o = ['.']) :
    holdDetected ((if c then [','] else []) ++ b :: (o ++ [':'])) = true := by
  cases c <;> rcases ho with rfl | rfl | rfl <;>
    simp [holdDetected]

theorem stripColon_concat (l : Chars) : stripTrailingColon (l ++ [':']) = l := by
  simp [stripTrailingColon, List.getLast?_concat, List.dropLast_concat]

theorem stripRun_last_ne (c : Char) (k : Nat) (hk : 0 < k) (l : Chars) (d : Char)
    (hl : l.getLast? = some d) (hd : ¬(d = c)) : stripTrailingRun c k l = l := by
  rw [stripTrailingRun]
  rcases hrev : l.reverse with _ | ⟨e, r⟩
  · rw [List.reverse_eq_nil_iff] at hrev
    rw [hrev] at hl
    simp at hl
  · have he : e = d := by
      have hh := List.head?_reverse l
      rw [hrev, hl, List.head?_cons] at hh
      exact Option.some.injEq .. ▸ hh
    rw [List.takeWhile_cons]
    have : decide (e = c) = false := by
      rw [he]
      exact decide_eq_false hd
    rw [this]
    simp [Nat.not_le.mpr hk]

theorem stripRun_dot_after (l : Chars) (x : Char) (hx : ¬(x = '.')) :
    stripTrailingRun '.' 3 (l ++ [x, '.']) = l ++ [x, '.'] := by
  rw [stripTrailingRun]
  have hrev : (l ++ [x, '.']).reverse = '.' :: x :: l.reverse := by
    simp
  rw [hrev, List.takeWhile_cons]
  simp [List.takeWhile_cons, hx]

theorem stripHold_sh1 (b : Char) (hb : isBaseLetter b = true) :
    stripHoldMarks [b, ':'] = [b] := by
  obtain ⟨-, -, -, h4, -, h6, -, -, -, -, -, h12, -⟩ := base_facts b hb
  rw [stripHoldMarks, show ([b, ':'] : Chars) = [b] ++ [':'] from rfl,
    stripColon_concat, stripRun_last_ne '-' 2 (by omega) [b] b rfl h6,
    stripRun_last_ne '.' 3 (by omega) [b] b rfl h4]
  have e4 : removeSub ['.', '.', '.'] [b] = [b] := by
    simp [removeSub, removeSubAux, isPfx, fun hh : ('.' : Char) = b => h4 hh.symm]
  rw [e4]
  exact pyStrip_of_ends [b] b b rfl h12 rfl h12

theorem stripHold_sh2 (b : Char) (hb : isBaseLetter b = true) :
    stripHoldMarks [b, apos, ':'] = [b, apos] := by
  obtain ⟨-, -, -, h4, -, -, -, -, -, -, -, h12, -⟩ := base_facts b hb
  rw [stripHoldMarks, show ([b, apos, ':'] : Chars) = [b, apos] ++ [':'] from rfl,
    stripColon_concat,
    stripRun_last_ne '-' 2 (by omega) [b, apos] apos rfl (by decide),
    stripRun_last_ne '.' 3 (by omega) [b, apos] apos rfl (by decide)]
  have e4 : removeSub ['.', '.', '.'] [b, apos] = [b, apos] := by
    simp [removeSub, removeSubAux, isPfx, fun hh : ('.' : Char) = b => h4 hh.symm,
      show ¬(('.' : Char) = apos) from by decide]
  rw [e4]
  exact pyStrip_of_ends [b, apos] b apos rfl h12 rfl sp_apos

theorem stripHold_sh3 (b : Char) (hb : isBaseLetter b = true) :
    stripHoldMarks [b, '.', ':'] = [b, '.'] := by
  obtain ⟨-, -, -, h4, -, -, -, -, -, -, -, h12, -⟩ := base_facts b hb
  rw [stripHoldMarks, show ([b, '.', ':'] : Chars) = [b, '.'] ++ [':'] from rfl,
    stripColon_concat,
    stripRun_last_ne '-' 2 (by omega) [b, '.'] '.' rfl (by decide),
    show ([b, '.'] : Chars) = [] ++ [b, '.'] from rfl, stripRun_dot_after [] b h4]
  have e4 : removeSub ['.', '.', '.'] ([] ++ [b, '.']) = [b, '.'] := by
    simp [removeSub, removeSubAux, isPfx, fun hh : ('.' : Char) = b => h4 hh.symm]
  rw [e4]
  exact pyStrip_of_ends [b, '.'] b '.' rfl h12 rfl sp_dot

theorem stripHold_sh4 (b : Char) (hb : isBaseLetter b = true) :
    stripHoldMarks [',', b, ':'] = [',', b] := by
  obtain ⟨-, -, -, h4, -, h6, -, -, -, -, -, h12, -⟩ := base_facts b hb
  rw [stripHoldMarks, show ([',', b, ':'] : Chars) = [',', b] ++ [':'] from rfl,
    stripColon_concat, stripRun_last_ne '-' 2 (by omega) [',', b] b rfl h6,
    stripRun_last_ne '.' 3 (by omega) [',', b] b rfl h4]
  have e4 : removeSub ['.', '.', '.'] [',', b] = [',', b] := by
    simp [removeSub, removeSubAux, isPfx, fun hh : ('.' : Char) = b => h4 hh.symm,
      show ¬(('.' : Char) = ',') from by decide]
  rw [e4]
  exact pyStrip_of_ends [',', b] ',' b rfl sp_comma rfl h12

theorem stripHold_sh5 (b : Char) (hb : isBaseLetter b = true) :
    stripHoldMarks [',', b, apos, ':'] = [',', b, apos] := by
  obtain ⟨-, -, -, h4, -, -, -, -, -, -, -, h12, -⟩ := base_facts b hb
  rw [stripHoldMarks, show ([',', b, apos, ':'] : Chars) = [',', b, apos] ++ [':'] from rfl,
    stripColon_concat,
    stripRun_last_ne '-' 2 (by omega) [',', b, apos] apos rfl (by decide),
    stripRun_last_ne '.' 3 (by omega) [',', b, apos] apos rfl (by decide)]
  have e4 : removeSub ['.', '.', '.'] [',', b, apos] = [',', b, apos] := by
    simp [removeSub, removeSubAux, isPfx, fun hh : ('.' : Char) = b => h4 hh.symm,
      show ¬(('.' : Char) = ',') from by decide,
      show ¬(('.' : Char) = apos) from by decide]
  rw [e4]
  exact pyStrip_of_ends [',', b, apos] ',' apos rfl sp_comma rfl sp_apos

theorem stripHold_sh6 (b : Char) (hb : isBaseLetter b = true) :
    stripHoldMarks [',', b, '.', ':'] = [',', b, '.'] := by
  obtain ⟨-, -, -, h4, -, -, -, -, -, -, -, h12, -⟩ := base_facts b hb
  rw [stripHoldMarks, show ([',', b, '.', ':'] : Chars) = [',', b, '.'] ++ [':'] from rfl,
    stripColon_concat,
    stripRun_last_ne '-' 2 (by omega) [',', b, '.'] '.' rfl (by decide),
    show ([',', b, '.'] : Chars) = [','] ++ [b, '.'] from rfl, stripRun_dot_after [','] b h4]
  have e4 : removeSub ['.', '.', '.'] ([','] ++ [b, '.']) = [',', b, '.'] := by
    simp [removeSub, removeSubAux, isPfx, fun hh : ('.' : Char) = b => h4 hh.symm,
      show ¬(('.' : Char) = ',') from by decide]
  rw [e4]
  exact pyStrip_of_ends [',', b, '.'] ',' '.' rfl sp_comma rfl sp_dot

theorem dropWhile_all_false (p : Char → Bool) (l : Chars)
    (h : ∀ c ∈ l, p c = false) : l.dropWhile p = l := by
  cases l with
  | nil => rfl
  | cons c rest =>
      rw [List.dropWhile_cons, h c (List.mem_cons_self _ _)]
      simp

theorem charOKb_space (x : Char) (h : charOKb x = true) : isPySpace x = false := by
  simp [charOKb] at h
  exact h.1

theorem pyStrip_canon (t : Chars) (hok : t.all charOKb = true) : pyStrip t = t := by
  have hsp : ∀ c ∈ t, isPySpace c = false := fun c hc =>
    charOKb_space c (List.all_eq_true.mp hok c hc)
  rw [pyStrip, dropWhile_all_false _ _ hsp, dropWhile_all_false, List.reverse_reverse]
  intro c hc
  exact hsp c (List.mem_reverse.mp hc)

theorem kanMatch_one (x : Char) : kanMatch [x] = none := rfl

theorem kanMatch_two (x y : Char) : kanMatch [x, y] = none := rfl

theorem kanMatch_three (x y z : Char) : kanMatch [x, y, z] = none := rfl

theorem meendMatch_one (x : Char) : meendMatch [x] = none := rfl

theorem meendMatch_two (x y : Char) : meendMatch [x, y] = none := rfl

theorem meendMatch_mid (x y z : Char) (hy : ¬(y = '~')) :
    meendMatch [x, y, z] = none := by
  simp [meendMatch, hy]

theorem komalInline_one (x : Char) : komalInline [x] = none := rfl

theorem komalInline_two (x y : Char) : komalInline [x, y] = none := rfl

theorem komalInline_three (x y z : Char) : komalInline [x, y, z] = none := rfl

theorem kan_none_plain (c : Bool) (b : Char) (o : Chars)
    (ho : o = [] ∨ o = [apos] ∨ o = ['.']) :
    kanMatch ((if c then [','] else []) ++ b :: o) = none := by
  cases c <;> rcases ho with rfl | rfl | rfl <;> rfl

theorem meend_none_plain (c : Bool) (b : Char) (o : Chars)
    (hb : isBaseLetter b = true) (ho : o = [] ∨ o = [apos] ∨ o = ['.']) :
    meendMatch ((if c then [','] else []) ++ b :: o) = none := by
  obtain ⟨-, -, -, -, -, -, h7, -, -, -, -, -, -⟩ := base_facts b hb
  cases c <;> rcases ho with rfl | rfl | rfl
  · rfl
  · rfl
  · rfl
  · rfl
  · exact meendMatch_mid ',' b apos h7
  · exact meendMatch_mid ',' b '.' h7

theorem komal_none_plain (c : Bool) (b : Char) (o : Chars)
    (ho : o = [] ∨ o = [apos] ∨ o = ['.']) :
    komalInline ((if c then [','] else []) ++ b :: o) = none := by
  cases c <;> rcases ho with rfl | rfl | rfl <;> rfl

theorem noteSimple_plain (c : Bool) (b : Char) (o : Chars)
    (hb : isBaseLetter b = true) (ho : o = [] ∨ o = [apos] ∨ o = ['.']) :
    noteSimpleMatch ((if c then [','] else []) ++ b :: o) = true := by
  obtain ⟨h1, -, -, -, -, -, -, -, -, -, -, -, -⟩ := base_facts b hb
  cases c <;> rcases ho with rfl | rfl | rfl <;>
    simp [noteSimpleMatch, hb, h1]

theorem stripHold_plain (c : Bool) (b : Char) (o : Chars)
    (hb : isBaseLetter b = true) (ho : o = [] ∨ o = [apos] ∨ o = ['.']) :
    stripHoldMarks ((if c then [','] else []) ++ b :: (o ++ [':'])) =
      (if c then [','] else []) ++ b :: o := by
  cases c <;> rcases ho with rfl | rfl | rfl
  · exact stripHold_sh1 b hb
  · exact stripHold_sh2 b hb
  · exact stripHold_sh3 b hb
  · exact stripHold_sh4 b hb
  · exact stripHold_sh5 b hb
  · exact stripHold_sh6 b hb

theorem processFragment_plain (c : Bool) (b : Char) (o hh : Chars)
    (hb : isBaseLetter b = true) (ho : o = [] ∨ o = [apos] ∨ o = ['.'])
    (hhold : hh = [] ∨ hh = [':']) :
    processFragment ((if c then [','] else []) ++ b :: (o ++ hh)) =
      some ((if c then [','] else []) ++ b :: (o ++ hh)) := by
  have hcanon := canon_charOK _ (Canon.plain c b o hh hb ho hhold)
  have hstrip := pyStrip_canon _ hcanon.2
  rcases hhold with rfl | rfl
  · rw [List.append_nil]
    rw [List.append_nil] at hstrip hcanon
    rw [processFragment]
    simp only [hstrip, if_neg hcanon.1, holdDetected_plain_false c b o hb ho,
      Bool.false_eq_true, if_false, kan_none_plain c b o ho,
      meend_none_plain c b o hb ho, komal_none_plain c b o ho, Option.isSome_none,
      noteSimple_plain c b o hb ho, if_true, normNote_canon c b o hb ho,
      List.append_nil]
  · rw [processFragment]
    simp only [hstrip, if_neg hcanon.1, holdDetected_plain_true c b o hb ho,
      if_true, stripHold_plain c b o hb ho, kan_none_plain c b o ho,
      meend_none_plain c b o hb ho, komal_none_plain c b o ho, Option.isSome_none,
      noteSimple_plain c b o hb ho, normNote_canon c b o hb ho]
    cases c <;> rcases ho with rfl | rfl | rfl <;> rfl

theorem normNote_base (b : Char) (hb : isBaseLetter b = true) : normNote [b] = [b] := by
  simpa using normNote_canon false b [] hb (Or.inl rfl)

theorem meend_eval (a b : Char) (ha : isBaseLetter a = true)
    (hb : isBaseLetter b = true) : meendMatch [a, '~', b] = some (a, b) := by
  simp [meendMatch, ha, hb]

theorem kan_eval4 (a b : Char) (ha : isBaseLetter a = true)
    (hb : isBaseLetter b = true) : kanMatch ['(', a, ')', b] = some (a, b, []) := by
  simp [kanMatch, ha, hb]

theorem kan_eval5 (a b o0 : Char) (ha : isBaseLetter a = true)
    (hb : isBaseLetter b = true) (ho : o0 = apos ∨ o0 = '.') :
    kanMatch ['(', a, ')', b, o0] = some (a, b, [o0]) := by
  rcases ho with rfl | rfl <;> simp [kanMatch, ha, hb]

theorem holdDetected_meend (a b : Char) (ha : isBaseLetter a = true)
    (hb : isBaseLetter b = true) : holdDetected [a, '~', b] = false := by
  obtain ⟨-, -, -, ha4, -, -, -, -, -, -, -, -, -⟩ := base_facts a ha
  obtain ⟨-, -, -, hb4, hb5, hb6, -, -, -, -, -, -, -⟩ := base_facts b hb
  simp [holdDetected, containsSub, isPfx, endsWithRun, hb4, hb5, hb6,
    show ¬(('.' : Char) = '~') from by decide,
    fun hh : ('.' : Char) = a => ha4 hh.symm,
    fun hh : ('.' : Char) = b => hb4 hh.symm,
    fun hh : b = '.' => hb4 hh, fun hh : b = '-' => hb6 hh]

theorem holdDetected_kan (a b : Char) (o : Chars) (ha : isBaseLetter a = true)
    (hb : isBaseLetter b = true) (ho : o = [] ∨ o = [apos] ∨ o = ['.']) :
    holdDetected (['(', a, ')', b] ++ o) = false := by
  obtain ⟨-, -, -, ha4, -, -, -, -, -, -, -, -, -⟩ := base_facts a ha
  obtain ⟨-, -, -, hb4, hb5, hb6, -, -, -, -, -, -, -⟩ := base_facts b hb
  rcases ho with rfl | rfl | rfl <;>
    simp [holdDetected, containsSub, isPfx, endsWithRun, hb4, hb5, hb6,
      show ¬(('.' : Char) = '(') from by decide,
      show ¬(('.' : Char) = ')') from by decide,
      show ¬(apos = '-') from by decide, show ¬(apos = ':') from by decide,
      show ¬(apos = '.') from by decide, show ¬(('.' : Char) = '-') from by decide,
      show ¬(('.' : Char) = ':') from by decide,
      fun hh : ('.' : Char) = a => ha4 hh.symm,
      fun hh : ('.' : Char) = b => hb4 hh.symm,
      fun hh : b = '.' => hb4 hh, fun hh : b = '-' => hb6 hh]

theorem processFragment_meend (a b : Char) (ha : isBaseLetter a = true)
    (hb : isBaseLetter b = true) :
    processFragment [a, '~', b] = some [a, '~', b] := by
  have hcanon := canon_charOK _ (Canon.meend a b ha hb)
  have hstrip := pyStrip_canon _ hcanon.2
  rw [processFragment]
  simp only [hstrip, if_neg hcanon.1, holdDetected_meend a b ha hb,
    Bool.false_eq_true, if_false, kanMatch_three, meend_eval a b ha hb,
    normNote_base a ha, normNote_base b hb]
  rfl

theorem processFragment_kan (a b : Char) (o : Chars) (ha : isBaseLetter a = true)
    (hb : isBaseLetter b = true) (ho : o = [] ∨ o = [apos] ∨ o = ['.']) :
    processFragment (['(', a, ')', b] ++ o) = some (['(', a, ')', b] ++ o) := by
  have hn1 : normNote [a] = [a] := normNote_base a ha
  rcases ho with rfl | rfl | rfl
  · show processFragment ['(', a, ')', b] = some ['(', a, ')', b]
    have hcanon := canon_charOK _ (Canon.kan a b [] ha hb (Or.inl rfl))
    have hne : (['(', a, ')', b] : Chars) ≠ [] := by simp
    have hok : (['(', a, ')', b] : Chars).all charOKb = true := by
      simpa using hcanon.2
    have hstrip := pyStrip_canon _ hok
    have hd : holdDetected ['(', a, ')', b] = false := by
      simpa using holdDetected_kan a b [] ha hb (Or.inl rfl)
    have hn2 : normNote [b] = [b] := normNote_base b hb
    rw [processFragment]
    simp only [hstrip, if_neg hne, hd, Bool.false_eq_true, if_false,
      kan_eval4 a b ha hb, hn1, List.append_nil, hn2]
    rfl
  · show processFragment ['(', a, ')', b, apos] = some ['(', a, ')', b, apos]
    have hcanon := canon_charOK _ (Canon.kan a b [apos] ha hb (Or.inr (Or.inl rfl)))
    have hne : (['(', a, ')', b, apos] : Chars) ≠ [] := by simp
    have hok : (['(', a, ')', b, apos] : Chars).all charOKb = true := by
      simpa using hcanon.2
    have hstrip := pyStrip_canon _ hok
    have hd : holdDetected ['(', a, ')', b, apos] = false := by
      simpa using holdDetected_kan a b [apos] ha hb (Or.inr (Or.inl rfl))
    have hn2 : normNote ([b] ++ [apos]) = [b] ++ [apos] := by
      simpa using normNote_canon false b [apos] hb (Or.inr (Or.inl rfl))
    rw [processFragment]
    simp only [hstrip, if_neg hne, hd, Bool.false_eq_true, if_false,
      kan_eval5 a b apos ha hb (Or.inl rfl), hn1, hn2]
    rfl
  · show processFragment ['(', a, ')', b, '.'] = some ['(', a, ')', b, '.']
    have hcanon := canon_charOK _ (Canon.kan a b ['.'] ha hb (Or.inr (Or.inr rfl)))
    have hne : (['(', a, ')', b, '.'] : Chars) ≠ [] := by simp
    have hok : (['(', a, ')', b, '.'] : Chars).all charOKb = true := by
      simpa using hcanon.2
    have hstrip := pyStrip_canon _ hok
    have hd : holdDetected ['(', a, ')', b, '.'] = false := by
      simpa using holdDetected_kan a b ['.'] ha hb (Or.inr (Or.inr rfl))
    have hn2 : normNote ([b] ++ ['.']) = [b] ++ ['.'] := by
      simpa using normNote_canon false b ['.'] hb (Or.inr (Or.inr rfl))
    rw [processFragment]
    simp only [hstrip, if_neg hne, hd, Bool.false_eq_true, if_false,
      kan_eval5 a b '.' ha hb (Or.inr rfl), hn1, hn2]
    rfl

theorem processFragment_canon (t : Chars) (h : Canon t) :
    processFragment t = some t := by
  cases h with
  | plain c b o hh hb ho hhold => exact processFragment_plain c b o hh hb ho hhold
  | meend a b ha hb => exact processFragment_meend a b ha hb
  | kan a b o ha hb ho => exact processFragment_kan a b o ha hb ho

theorem charOKb_pipe (x : Char) (h : charOKb x = true) : x ≠ '|' := by
  simp [charOKb] at h
  exact h.2.1

theorem charOKb_ell (x : Char) (h : charOKb x = true) : x ≠ Char.ofNat 0x2026 := by
  simp [charOKb] at h
  exact h.2.2.1

theorem charOKb_nospace (x : Char) (h : charOKb x = true) : x ≠ ' ' := by
  simp [charOKb] at h
  exact h.2.2.2

theorem joinSpace_ne_nil (t : Chars) (ts : List Chars) (ht : t ≠ []) :
    joinSpace (t :: ts) ≠ [] := by
  rcases ts with _ | ⟨t', ts'⟩
  · exact ht
  · rw [show joinSpace (t :: t' :: ts') = t ++ ' ' :: joinSpace (t' :: ts') from rfl]
    simp

theorem head?_joinSpace (t : Chars) (ts : List Chars) (ht : t ≠ []) :
    (joinSpace (t :: ts)).head? = t.head? := by
  rcases ts with _ | ⟨t', ts'⟩
  · rfl
  · rw [show joinSpace (t :: t' :: ts') = t ++ ' ' :: joinSpace (t' :: ts') from rfl]
    rcases t with _ | ⟨c, t0⟩
    · exact absurd rfl ht
    · rfl

theorem getLast?_joinSpace (ts : List Chars) : ∀ t : Chars,
    (∀ u ∈ t :: ts, u ≠ []) →
    ∃ u, u ∈ t :: ts ∧ (joinSpace (t :: ts)).getLast? = u.getLast? := by
  induction ts with
  | nil => exact fun t _ => ⟨t, List.mem_cons_self _ _, rfl⟩
  | cons t' ts' ih =>
      intro t hne
      obtain ⟨u, hu, hlast⟩ := ih t' (fun x hx => hne x (List.mem_cons_of_mem _ hx))
      refine ⟨u, List.mem_cons_of_mem _ hu, ?_⟩
      rw [show joinSpace (t :: t' :: ts') = t ++ ' ' :: joinSpace (t' :: ts') from rfl]
      rw [List.getLast?_append]
      rcases hjj : joinSpace (t' :: ts') with _ | ⟨d, r⟩
      · exact absurd hjj (joinSpace_ne_nil t' ts'
          (hne t' (List.mem_cons_of_mem _ (List.mem_cons_self _ _))))
      · rw [List.getLast?_cons_cons, ← hjj, hlast]
        have hu0 : u ≠ [] := hne u (List.mem_cons_of_mem _ hu)
        rcases hg : u.getLast? with _ | y
        · exact absurd (List.getLast?_eq_none_iff.mp hg) hu0
        · rfl

theorem foldl_process (toks : List Chars)
    (h : ∀ t ∈ toks, processFragment t = some t) : ∀ acc : List Chars,
    toks.foldl (fun acc p =>
      match processFragment p with
      | some t => acc ++ [t]
      | none => acc) acc = acc ++ toks := by
  induction toks with
  | nil => intro acc; simp
  | cons t ts ih =>
      intro acc
      rw [List.foldl_cons, h t (List.mem_cons_self _ _)]
      rw [ih (fun x hx => h x (List.mem_cons_of_mem _ hx))]
      simp

theorem mem_of_head?A (l : Chars) (c : Char) (h : l.head? = some c) : c ∈ l := by
  rcases l with _ | ⟨a, t⟩
  · simp at h
  · simp only [List.head?_cons, Option.some.injEq] at h
    rw [← h]
    exact List.mem_cons_self _ _

theorem mem_of_getLast?A (l : Chars) (c : Char) (h : l.getLast? = some c) : c ∈ l := by
  rw [← List.head?_reverse] at h
  exact List.mem_reverse.mp (mem_of_head?A _ c h)

theorem tokenizeFallback_joinSpace (toks : List Chars)
    (hc : ∀ t ∈ toks, Canon t) :
    tokenizeFallback (joinSpace toks) = toks := by
  rcases toks with _ | ⟨t, ts⟩
  · rfl
  · have hall : ∀ u ∈ t :: ts, u ≠ [] ∧ u.all charOKb = true :=
      fun u hu => canon_charOK u (hc u hu)
    have hne : ∀ u ∈ t :: ts, u ≠ [] := fun u hu => (hall u hu).1
    have hok : ∀ u ∈ t :: ts, ∀ x ∈ u, charOKb x = true := fun u hu x hx =>
      List.all_eq_true.mp (hall u hu).2 x hx
    have hline_ne : joinSpace (t :: ts) ≠ [] :=
      joinSpace_ne_nil t ts (hne t (List.mem_cons_self _ _))
    -- 1. stripping is the identity
    have hstrip : pyStrip (joinSpace (t :: ts)) = joinSpace (t :: ts) := by
      obtain ⟨u, hu, hlast⟩ := getLast?_joinSpace ts t hne
      rcases hhd : t.head? with _ | c0
      · exact absurd (List.head?_eq_none_iff.mp hhd) (hne t (List.mem_cons_self _ _))
      · rcases hgl : u.getLast? with _ | c1
        · exact absurd (List.getLast?_eq_none_iff.mp hgl) (hne u hu)
        · refine pyStrip_of_ends _ c0 c1 ?_ ?_ ?_ ?_
          · rw [head?_joinSpace t ts (hne t (List.mem_cons_self _ _)), hhd]
          · exact charOKb_space c0 (hok t (List.mem_cons_self _ _) c0
              (mem_of_head?A _ _ hhd))
          · rw [hlast, hgl]
          · exact charOKb_space c1 (hok u hu c1 (mem_of_getLast?A _ _ hgl))
    -- 2. the separator replacements are the identity
    have hpipe : (joinSpace (t :: ts)).map (fun c => if c = '|' then ' ' else c) =
        joinSpace (t :: ts) := by
      apply map_pipe_id
      intro c hcm
      rcases mem_joinSpace _ c hcm with rfl | ⟨u, hu, hcu⟩
      · decide
      · exact charOKb_pipe c (hok u hu c hcu)
    have hell : (joinSpace (t :: ts)).foldr (fun c acc =>
        if c = Char.ofNat 0x2026 then ' ' :: '.' :: '.' :: '.' :: ' ' :: acc
        else c :: acc) [] = joinSpace (t :: ts) := by
      apply foldr_ellipsis_id
      intro c hcm
      rcases mem_joinSpace _ c hcm with rfl | ⟨u, hu, hcu⟩
      · decide
      · exact charOKb_ell c (hok u hu c hcu)
    -- 3. whitespace collapsing is the identity
    have hcoll : collapseWS (joinSpace (t :: ts)) = joinSpace (t :: ts) :=
      collapseWS_joinSpace _ (fun u hu => ⟨(hall u hu).1, fun x hx =>
        charOKb_space x (hok u hu x hx)⟩) false
    -- 4. splitting recovers the tokens, and each fragment maps to itself
    have hsplit : splitSpace (joinSpace (t :: ts)) = t :: ts :=
      splitSpace_joinSpace _ (fun u hu x hx => charOKb_nospace x (hok u hu x hx))
        (List.cons_ne_nil _ _)
    rw [tokenizeFallback]
    simp only [hstrip, if_neg hline_ne, hpipe, hell, hcoll, hsplit]
    rw [foldl_process _ (fun u hu => processFragment_canon u (hc u hu)) []]
    rfl

/-- C10: tokenizing a sequence of already-canonical letter-style tokens joined
by single spaces returns exactly that sequence — tokenization is idempotent on
its own canonical output. -/
theorem tokenize_idempotent_on_canonical (toks : List Chars)
    (hc : ∀ t ∈ toks, Canon t) :
    tokenizeFromIndian (joinSpace toks) = toks := by
  rcases hts : toks with _ | ⟨t, ts⟩
  · rfl
  · have hf : tokenizeFallback (joinSpace (t :: ts)) = t :: ts :=
      tokenizeFallback_joinSpace _ (hts ▸ hc)
    rw [tokenizeFromIndian]
    simp only [hf, ne_eq, List.cons_ne_nil, not_false_eq_true, if_true]



/-- Witness for C10 at the concrete canonical sequence. -/
theorem tokenize_idempotent_on_canonical_witness :
    tokenizeFromIndian (joinSpace canonExample) = canonExample :=
  tokenize_idempotent_on_canonical canonExample (by
    intro t ht
    simp only [canonExample, List.mem_cons, List.not_mem_nil, or_false] at ht
    rcases ht with rfl | rfl | rfl | rfl
    · exact Canon.plain true 'S' [apos] [] (by decide) (Or.inr (Or.inl rfl)) (Or.inl rfl)
    · exact Canon.meend 'G' 'R' (by decide) (by decide)
    · exact Canon.kan 'R' 'G' [apos] (by decide) (by decide) (Or.inr (Or.inl rfl))
    · exact Canon.plain false 'm' [] [':'] (by decide) (Or.inl rfl) (Or.inr rfl))

end Songbook
